import Mathlib

/-!
Verification of the request-scheduling core of `src/core/rpc.cc` (the lapis
RPC networking layer): the synchronous and asynchronous per-key request
queues, the network loop's send records, broadcast / sync-broadcast over the
response pool, and the processor's request dispatch.

The C++ source is shallowly embedded as pure Lean functions.  Stateful
classes become explicit state records; the two `NextRequest` busy-wait loops
are modelled by their sequential (dequeue-only) semantics: a cyclic scan
from the cursor that stops at the first slot whose (current-lane) queue is
non-empty, pops its head, and advances the cursor past that slot — exactly
what the `while (!success)` loops in the source do when no concurrent
enqueue interleaves.  Blocking forever (all queues empty) is modelled as
`Option.none`.  `CHECK` failures (glog fatal aborts) are modelled as
`Option.none` results of the enqueue functions.
-/

namespace Lapis

/-- Modelled from the spec: the `MessageKind` enumeration lives in
`proto/common.pb.h`, which is not part of the sources; the core only ever
compares tags for equality, so the tags are modelled as distinct naturals. -/
def MTYPE_GET_REQUEST : Nat := 2

/-- Modelled from the spec: see `MTYPE_GET_REQUEST`. -/
def MTYPE_PUT_REQUEST : Nat := 3

/-- Serialized payload bytes, modelled by the content the core extracts from
them: the `key` field of `HashGet` / `TableData` (read by
`RequestQueue::ExtractKey`) plus an opaque remainder distinguishing
envelopes. -/
structure Payload where
  key : String
  body : Nat
deriving DecidableEq

/-- `TaggedMessage` from rpc.cc: a message-kind tag paired with the payload. -/
structure TaggedMessage where
  tag : Nat
  data : Payload
deriving DecidableEq

/-- `RequestQueue::ExtractKey`: for `GET_REQUEST` the payload parses as
`HashGet` and for `PUT_REQUEST` as `TableData`; in both cases the `key`
field is read.  For any other tag the out-parameter is left untouched
(empty string). -/
def ExtractKey (tag : Nat) (data : Payload) : String :=
  if tag = MTYPE_GET_REQUEST then data.key
  else if tag = MTYPE_PUT_REQUEST then data.key
  else ""

/-- Cyclic distance from position `c` to position `x` among `n` slots
(intended for `c, x < n`): the number of cursor advances needed to move from
`c` to `x`. -/
def cdist (n c x : Nat) : Nat := if c ≤ x then x - c else x + n - c

theorem cdist_self (n c : Nat) : cdist n c c = 0 := by
  simp [cdist]

theorem cdist_lt (n c x : Nat) (hc : c < n) (hx : x < n) : cdist n c x < n := by
  unfold cdist; split <;> omega

theorem cdist_inj (n c x y : Nat) (hc : c < n) (hx : x < n) (hy : y < n)
    (h : cdist n c x = cdist n c y) : x = y := by
  unfold cdist at h; split at h <;> split at h <;> omega

theorem cdist_eq_zero (n c x : Nat) (hc : c < n) (hx : x < n) :
    cdist n c x = 0 ↔ x = c := by
  unfold cdist; split <;> omega

/-- Advancing the cursor one step decreases the cyclic distance to any other
position by one. -/
theorem cdist_succ (n c x : Nat) (hc : c < n) (hx : x < n) (hne : x ≠ c) :
    cdist n ((c + 1) % n) x + 1 = cdist n c x := by
  rcases Nat.lt_or_ge (c + 1) n with h | h
  · rw [Nat.mod_eq_of_lt h]
    unfold cdist; split <;> split <;> omega
  · have hcn : c + 1 = n := by omega
    have : (c + 1) % n = 0 := by rw [hcn]; exact Nat.mod_self n
    rw [this]
    unfold cdist; split <;> split <;> omega

/-- Moving the cursor just past an emission slot `i` that lies strictly
before `x` in cyclic order shortens the distance to `x` accordingly. -/
theorem cdist_shift (n c i x : Nat) (hc : c < n) (hi : i < n) (hx : x < n)
    (h : cdist n c i < cdist n c x) :
    cdist n ((i + 1) % n) x = cdist n c x - cdist n c i - 1 := by
  rcases Nat.lt_or_ge (i + 1) n with h1 | h1
  · rw [Nat.mod_eq_of_lt h1]
    unfold cdist at h ⊢; split at h <;> split at h <;> split <;> omega
  · have hin : i + 1 = n := by omega
    have : (i + 1) % n = 0 := by rw [hin]; exact Nat.mod_self n
    rw [this]
    unfold cdist at h ⊢; split at h <;> split at h <;> split <;> omega

/-- The cyclic scan shared by both `NextRequest` loops: starting at slot
`start` (taken modulo the number of slots `n`), examine the slots in cyclic
order and return the first one satisfying `ne` (in the source: the first
slot whose current queue is non-empty).  `fuel` bounds the scan; `n` steps
cover every slot. -/
def findSlot (n : Nat) (ne : Nat → Bool) : Nat → Nat → Option Nat
  | _, 0 => none
  | start, fuel + 1 =>
    if n = 0 then none
    else if ne (start % n) then some (start % n)
    else findSlot n ne (start % n + 1) fuel

theorem findSlot_some (n : Nat) (ne : Nat → Bool) :
    ∀ fuel start i, findSlot n ne start fuel = some i → ne i = true ∧ i < n := by
  intro fuel
  induction fuel with
  | zero => intro start i h; simp [findSlot] at h
  | succ f ih =>
    intro start i h
    unfold findSlot at h
    split at h
    · exact absurd h (by simp)
    · next hn =>
      split at h
      · next hne =>
        cases h
        exact ⟨hne, Nat.mod_lt _ (by omega)⟩
      · exact ih _ _ h

/-- The slot found by the cyclic scan is the cyclically closest one (from
the start position) among all slots satisfying `ne`. -/
theorem findSlot_min (n : Nat) (ne : Nat → Bool) :
    ∀ fuel start i, findSlot n ne start fuel = some i →
      ∀ x, x < n → ne x = true →
        cdist n (start % n) i ≤ cdist n (start % n) x := by
  intro fuel
  induction fuel with
  | zero => intro start i h; simp [findSlot] at h
  | succ f ih =>
    intro start i h x hx hnex
    unfold findSlot at h
    split at h
    · exact absurd h (by simp)
    · next hn =>
      have hn0 : 0 < n := by omega
      have hc : start % n < n := Nat.mod_lt _ hn0
      split at h
      · next hne =>
        cases h
        simp [cdist_self]
      · next hne =>
        have hxc : x ≠ start % n := by
          intro he; rw [he] at hnex; simp [hnex] at hne
        have hi := findSlot_some n ne f _ _ h
        have hic : i ≠ start % n := by
          intro he; rw [he] at hi; simp [hi.1] at hne
        have hrec := ih _ _ h x hx hnex
        have hmm : (start % n + 1) % n = ((start % n) + 1) % n := rfl
        rw [hmm] at hrec
        have h1 := cdist_succ n (start % n) i hc hi.2 hic
        have h2 := cdist_succ n (start % n) x hc hx hxc
        omega

/-- Completeness of the cyclic scan: if some slot within `fuel` cyclic steps
of the start satisfies `ne`, the scan succeeds.  In particular `fuel = n`
covers all slots. -/
theorem findSlot_isSome (n : Nat) (ne : Nat → Bool) :
    ∀ fuel start x, x < n → ne x = true → cdist n (start % n) x < fuel →
      (findSlot n ne start fuel).isSome := by
  intro fuel
  induction fuel with
  | zero => intro start x hx hne h; omega
  | succ f ih =>
    intro start x hx hne h
    have hn0 : 0 < n := by omega
    have hc : start % n < n := Nat.mod_lt _ hn0
    unfold findSlot
    split
    · omega
    · split
      · simp
      · next hnec =>
        have hxc : x ≠ start % n := by
          intro he; rw [he] at hne; simp [hne] at hnec
        have h1 := cdist_succ n (start % n) x hc hx hxc
        have hmm : (start % n + 1) % n = ((start % n) + 1) % n := rfl
        exact ih (start % n + 1) x hx hne (by rw [hmm]; omega)

theorem getD_set_self {α : Type} (l : List α) (i : Nat) (v d : α) (h : i < l.length) :
    (l.set i v).getD i d = v := by
  induction l generalizing i with
  | nil => simp at h
  | cons a t ih =>
    cases i with
    | zero => simp [List.set, List.getD]
    | succ j =>
      simp only [List.set, List.getD_cons_succ]
      exact ih j (by simpa using h)

theorem getD_set_ne {α : Type} (l : List α) (i j : Nat) (v d : α) (h : j ≠ i) :
    (l.set i v).getD j d = l.getD j d := by
  induction l generalizing i j with
  | nil => simp [List.set]
  | cons a t ih =>
    cases i with
    | zero =>
      cases j with
      | zero => omega
      | succ jj => simp [List.set]
    | succ ii =>
      cases j with
      | zero => simp [List.set]
      | succ jj =>
        simp only [List.set, List.getD_cons_succ]
        exact ih ii jj (by omega)

theorem getD_append_lt {α : Type} (l m : List α) (i : Nat) (d : α) (h : i < l.length) :
    (l ++ m).getD i d = l.getD i d := by
  induction l generalizing i with
  | nil => simp at h
  | cons a t ih =>
    cases i with
    | zero => simp [List.getD]
    | succ j =>
      simp only [List.cons_append, List.getD_cons_succ]
      exact ih j (by simpa using h)

theorem getD_append_len {α : Type} (l : List α) (x d : α) :
    (l ++ [x]).getD l.length d = x := by
  induction l with
  | nil => simp [List.getD]
  | cons a t ih => simpa [List.getD_cons_succ] using ih

/-- The key-to-slot map `std::map<string, int> key_map_`, modelled as an
association list (insertion order; keys are distinct). -/
def lookupKey : List (String × Nat) → String → Option Nat
  | [], _ => none
  | (k0, i) :: rest, k => if k0 = k then some i else lookupKey rest k

theorem lookupKey_append_of_none (m : List (String × Nat)) (k k0 : String) (i : Nat)
    (h : lookupKey m k0 = none) :
    lookupKey (m ++ [(k0, i)]) k = if k0 = k then some i else lookupKey m k := by
  induction m with
  | nil => simp [lookupKey]
  | cons a t ih =>
    obtain ⟨a1, a2⟩ := a
    simp only [lookupKey] at h
    by_cases ha : a1 = k0
    · simp [ha] at h
    · simp only [if_neg ha] at h
      by_cases hak : a1 = k
      · have hk : ¬ k0 = k := by
          intro he; apply ha; rw [hak, he]
        simp [lookupKey, hak, hk]
      · simp [lookupKey, hak, ih h]

/-- State of `SyncRequestQueue`: parallel per-key FIFOs (`request_queues_`),
the key map, and the round-robin cursor `key_index_`.  The per-slot locks
carry no data and are dropped.  The cursor starts at 0 (the field is
declared in `core/rpc.h`, which is not among the sources; 0 is the value
the round-robin scan of the `.cc` requires). -/
structure SyncQueue where
  key_map : List (String × Nat)
  request_queues : List (List TaggedMessage)
  key_index : Nat
deriving DecidableEq

def syncEmpty : SyncQueue := ⟨[], [], 0⟩

/-- `SyncRequestQueue::Enqueue`: extract the key; on first sight of the key
push a fresh queue and record slot `request_queues_.size() - 1`; then append
the envelope to the key's queue. -/
def syncEnqueue (s : SyncQueue) (tag : Nat) (data : Payload) : SyncQueue :=
  let key := ExtractKey tag data
  let s1 :=
    match lookupKey s.key_map key with
    | some _ => s
    | none => ⟨s.key_map ++ [(key, s.request_queues.length)],
               s.request_queues ++ [[]], s.key_index⟩
  match lookupKey s1.key_map key with
  | some idx =>
      { s1 with request_queues :=
          s1.request_queues.set idx ((s1.request_queues.getD idx []) ++ [⟨tag, data⟩]) }
  | none => s1

def syncEnqueueList (s : SyncQueue) (es : List (Nat × Payload)) : SyncQueue :=
  es.foldl (fun acc e => syncEnqueue acc e.1 e.2) s

/-- One successful pass of `SyncRequestQueue::NextRequest` (sequential,
dequeue-only semantics): scan cyclically from `key_index_` for the first
non-empty per-key queue, pop its head, and advance the cursor past that
slot.  `none` models blocking forever (every queue empty).  The returned
slot index is the slot the source popped from. -/
def syncNextIdx (s : SyncQueue) : Option (Nat × TaggedMessage × SyncQueue) :=
  match findSlot s.request_queues.length
      (fun i => !(s.request_queues.getD i []).isEmpty) s.key_index
      s.request_queues.length with
  | none => none
  | some i =>
    match s.request_queues.getD i [] with
    | [] => none
    | m :: rest =>
        some (i, m, ⟨s.key_map, s.request_queues.set i rest,
                     (i + 1) % s.request_queues.length⟩)

/-- Iterated `NextRequest`: the trace of (slot, envelope) emissions of `n`
successive calls (stopping early if the queue would block forever). -/
def syncRun (s : SyncQueue) : Nat → List (Nat × TaggedMessage) × SyncQueue
  | 0 => ([], s)
  | n + 1 =>
    match syncNextIdx s with
    | none => ([], s)
    | some (i, m, s2) =>
        let r := syncRun s2 n
        ((i, m) :: r.1, r.2)

/-- The sub-trace of emissions made at slot `i`. -/
def emissionsAt (i : Nat) (tr : List (Nat × TaggedMessage)) : List TaggedMessage :=
  tr.filterMap (fun p => if p.1 = i then some p.2 else none)

theorem bnot_isEmpty_iff {α : Type} (l : List α) : (!l.isEmpty) = true ↔ l ≠ [] := by
  cases l <;> simp

/-- Characterization of one successful synchronous `NextRequest` call: the
popped slot is within bounds, held the returned envelope at its head, is
the cyclically closest non-empty slot to the cursor, and the new state pops
it and advances the cursor just past it. -/
theorem syncNextIdx_some {s : SyncQueue} {i : Nat} {m : TaggedMessage} {s2 : SyncQueue}
    (h : syncNextIdx s = some (i, m, s2)) :
    i < s.request_queues.length ∧
    (∃ rest, s.request_queues.getD i [] = m :: rest ∧
       s2 = ⟨s.key_map, s.request_queues.set i rest,
             (i + 1) % s.request_queues.length⟩) ∧
    (∀ x, x < s.request_queues.length → s.request_queues.getD x [] ≠ [] →
       cdist s.request_queues.length (s.key_index % s.request_queues.length) i ≤
       cdist s.request_queues.length (s.key_index % s.request_queues.length) x) := by
  unfold syncNextIdx at h
  split at h
  · exact absurd h (by simp)
  · next j hf =>
    have hj := findSlot_some _ _ _ _ _ hf
    have hmin := findSlot_min _ _ _ _ _ hf
    split at h
    · exact absurd h (by simp)
    · next m0 rest hqq =>
      have hinj : j = i ∧ m0 = m ∧
          (⟨s.key_map, s.request_queues.set j rest,
            (j + 1) % s.request_queues.length⟩ : SyncQueue) = s2 := by
        have := h
        simp only [Option.some.injEq, Prod.mk.injEq] at this
        exact ⟨this.1, this.2.1, this.2.2⟩
      obtain ⟨hji, hm0, hs2⟩ := hinj
      subst hji; subst hm0; subst hs2
      refine ⟨hj.2, ⟨rest, hqq, rfl⟩, ?_⟩
      intro x hx hne
      exact hmin x hx ((bnot_isEmpty_iff _).2 hne)

theorem syncRun_none {s : SyncQueue} (h : syncNextIdx s = none) (T : Nat) :
    syncRun s T = ([], s) := by
  cases T with
  | zero => rfl
  | succ t => simp [syncRun, h]

/-- Each emitted trace position `t` is produced by one `NextRequest` call on
the state after `t` calls. -/
theorem syncRun_get? {T : Nat} : ∀ (s : SyncQueue) (t : Nat) (e : Nat × TaggedMessage),
    (syncRun s T).1.get? t = some e →
    syncNextIdx (syncRun s t).2 = some (e.1, e.2, (syncRun s (t + 1)).2) := by
  induction T with
  | zero => intro s t e h; simp [syncRun] at h
  | succ T ih =>
    intro s t e h
    rcases hn : syncNextIdx s with _ | ⟨i, m, s2⟩
    · rw [syncRun_none hn] at h; simp at h
    · simp only [syncRun, hn] at h
      cases t with
      | zero =>
        simp only [List.get?_cons_zero, Option.some.injEq] at h
        subst h
        simp [syncRun, hn]
      | succ t =>
        simp only [List.get?_cons_succ] at h
        have := ih s2 t e h
        simpa [syncRun, hn] using this

theorem syncRun_len_map (T : Nat) (s : SyncQueue) :
    (syncRun s T).2.request_queues.length = s.request_queues.length ∧
    (syncRun s T).2.key_map = s.key_map := by
  induction T generalizing s with
  | zero => exact ⟨rfl, rfl⟩
  | succ T ih =>
    rcases hn : syncNextIdx s with _ | ⟨i, m, s2⟩
    · rw [syncRun_none hn]; exact ⟨rfl, rfl⟩
    · obtain ⟨hi, ⟨rest, hq, hs2⟩, hmin⟩ := syncNextIdx_some hn
      subst hs2
      simp only [syncRun, hn]
      simpa [List.length_set] using
        ih ⟨s.key_map, s.request_queues.set i rest, (i + 1) % s.request_queues.length⟩

theorem emissionsAt_cons (i : Nat) (p : Nat × TaggedMessage)
    (tr : List (Nat × TaggedMessage)) :
    emissionsAt i (p :: tr) =
      if p.1 = i then p.2 :: emissionsAt i tr else emissionsAt i tr := by
  by_cases h : p.1 = i <;> simp [emissionsAt, h]

/-- Emissions at each slot are drained from the head of that slot's queue:
the trace at slot `x` followed by what remains equals the initial queue. -/
theorem syncRun_queues (T : Nat) : ∀ (s : SyncQueue) (x : Nat),
    emissionsAt x (syncRun s T).1 ++ ((syncRun s T).2.request_queues.getD x []) =
      s.request_queues.getD x [] := by
  induction T with
  | zero => intro s x; simp [syncRun, emissionsAt]
  | succ T ih =>
    intro s x
    rcases hn : syncNextIdx s with _ | ⟨i, m, s2⟩
    · rw [syncRun_none hn]; simp [emissionsAt]
    · obtain ⟨hi, ⟨rest, hq, hs2⟩, hmin⟩ := syncNextIdx_some hn
      subst hs2
      simp only [syncRun, hn]
      by_cases hx : i = x
      · subst hx
        have hrec := ih ⟨s.key_map, s.request_queues.set i rest,
          (i + 1) % s.request_queues.length⟩ i
        rw [emissionsAt_cons, if_pos rfl, List.cons_append, hrec]
        rw [getD_set_self _ _ _ _ hi, hq]
      · have hrec := ih ⟨s.key_map, s.request_queues.set i rest,
          (i + 1) % s.request_queues.length⟩ x
        rw [emissionsAt_cons, if_neg hx, hrec]
        exact getD_set_ne _ _ _ _ _ (fun he => hx he.symm)

/-- The synchronous queue of a key: the content of the slot assigned to it
(empty if the key was never seen). -/
def slotContent (s : SyncQueue) (k : String) : List TaggedMessage :=
  match lookupKey s.key_map k with
  | some i => s.request_queues.getD i []
  | none => []

/-- Structural invariant of `SyncRequestQueue` maintained by `Enqueue` and
`NextRequest`: every queued envelope sits in the slot its key maps to,
distinct keys own distinct slots, and every slot index is in range. -/
def SyncInv (s : SyncQueue) : Prop :=
  (∀ x, x < s.request_queues.length → ∀ m ∈ s.request_queues.getD x [],
     lookupKey s.key_map (ExtractKey m.tag m.data) = some x) ∧
  (∀ k1 k2 i, lookupKey s.key_map k1 = some i → lookupKey s.key_map k2 = some i →
     k1 = k2) ∧
  (∀ k i, lookupKey s.key_map k = some i → i < s.request_queues.length)

theorem SyncInv_empty : SyncInv syncEmpty := by
  refine ⟨?_, ?_, ?_⟩
  · intro x hx m hm; simp [syncEmpty] at hx
  · intro k1 k2 i h1 h2; simp [syncEmpty, lookupKey] at h1
  · intro k i h; simp [syncEmpty, lookupKey] at h

theorem syncEnqueue_existing {s : SyncQueue} {tag : Nat} {data : Payload} {idx : Nat}
    (h : lookupKey s.key_map (ExtractKey tag data) = some idx) :
    syncEnqueue s tag data =
      ⟨s.key_map,
       s.request_queues.set idx (s.request_queues.getD idx [] ++ [⟨tag, data⟩]),
       s.key_index⟩ := by
  simp [syncEnqueue, h]

theorem syncEnqueue_new {s : SyncQueue} {tag : Nat} {data : Payload}
    (h : lookupKey s.key_map (ExtractKey tag data) = none) :
    syncEnqueue s tag data =
      ⟨s.key_map ++ [(ExtractKey tag data, s.request_queues.length)],
       (s.request_queues ++ [[]]).set s.request_queues.length [⟨tag, data⟩],
       s.key_index⟩ := by
  simp [syncEnqueue, h, lookupKey_append_of_none _ _ _ _ h, getD_append_len]

theorem SyncInv_enqueue {s : SyncQueue} (h : SyncInv s) (tag : Nat) (data : Payload) :
    SyncInv (syncEnqueue s tag data) := by
  obtain ⟨h1, h2, h3⟩ := h
  rcases hl : lookupKey s.key_map (ExtractKey tag data) with _ | idx
  · rw [syncEnqueue_new hl]
    refine ⟨?_, ?_, ?_⟩
    · intro x hx m hm
      simp only [List.length_set, List.length_append, List.length_singleton] at hx
      by_cases hxL : x = s.request_queues.length
      · subst hxL
        rw [getD_set_self _ _ _ _ (by simp)] at hm
        simp only [List.mem_singleton] at hm
        subst hm
        rw [lookupKey_append_of_none _ _ _ _ hl, if_pos rfl]
      · rw [getD_set_ne _ _ _ _ _ hxL,
            getD_append_lt _ _ _ _ (by omega)] at hm
        have hmem := h1 x (by omega) m hm
        rw [lookupKey_append_of_none _ _ _ _ hl]
        split
        · next he => rw [← he, hl] at hmem; exact absurd hmem (by simp)
        · exact hmem
    · intro k1 k2 i hk1 hk2
      rw [lookupKey_append_of_none _ _ _ _ hl] at hk1 hk2
      split at hk1 <;> split at hk2
      · next he1 he2 => rw [← he1, ← he2]
      · next he1 he2 =>
        cases hk1
        have := h3 k2 _ hk2; omega
      · next he1 he2 =>
        cases hk2
        have := h3 k1 _ hk1; omega
      · exact h2 k1 k2 i hk1 hk2
    · intro k i hk
      rw [lookupKey_append_of_none _ _ _ _ hl] at hk
      simp only [List.length_set, List.length_append, List.length_singleton]
      split at hk
      · cases hk; omega
      · have := h3 k i hk; omega
  · rw [syncEnqueue_existing hl]
    refine ⟨?_, h2, ?_⟩
    · intro x hx m hm
      simp only [List.length_set] at hx
      by_cases hxI : x = idx
      · subst hxI
        rw [getD_set_self _ _ _ _ (h3 _ _ hl)] at hm
        rcases List.mem_append.mp hm with hm | hm
        · exact h1 x hx m hm
        · simp only [List.mem_singleton] at hm
          subst hm
          exact hl
      · rw [getD_set_ne _ _ _ _ _ hxI] at hm
        exact h1 x hx m hm
    · intro k i hk
      simp only [List.length_set]
      exact h3 k i hk

theorem slotContent_enqueue {s : SyncQueue} (h : SyncInv s) (tag : Nat) (data : Payload)
    (k : String) :
    slotContent (syncEnqueue s tag data) k =
      if ExtractKey tag data = k then slotContent s k ++ [⟨tag, data⟩]
      else slotContent s k := by
  obtain ⟨h1, h2, h3⟩ := h
  rcases hl : lookupKey s.key_map (ExtractKey tag data) with _ | idx
  · rw [syncEnqueue_new hl]
    unfold slotContent
    rw [lookupKey_append_of_none _ _ _ _ hl]
    by_cases hk : ExtractKey tag data = k
    · rw [if_pos hk, if_pos hk, ← hk, hl]
      simp only
      rw [getD_set_self _ _ _ _ (by simp)]
      simp
    · rw [if_neg hk, if_neg hk]
      rcases hlk : lookupKey s.key_map k with _ | jdx
      · simp
      · simp only
        have hj := h3 _ _ hlk
        rw [getD_set_ne _ _ _ _ _ (by omega), getD_append_lt _ _ _ _ hj]
  · rw [syncEnqueue_existing hl]
    unfold slotContent
    by_cases hk : ExtractKey tag data = k
    · rw [if_pos hk, ← hk, hl]
      simp only
      rw [getD_set_self _ _ _ _ (h3 _ _ hl)]
    · rw [if_neg hk]
      rcases hlk : lookupKey s.key_map k with _ | jdx
      · simp
      · simp only
        have hne : jdx ≠ idx := by
          intro he; subst he; exact hk (h2 _ _ _ hl hlk)
        rw [getD_set_ne _ _ _ _ _ hne]

theorem SyncInv_next {s : SyncQueue} {i : Nat} {m : TaggedMessage} {s2 : SyncQueue}
    (h : SyncInv s) (hn : syncNextIdx s = some (i, m, s2)) : SyncInv s2 := by
  obtain ⟨hi, ⟨rest, hq, hs2⟩, _⟩ := syncNextIdx_some hn
  subst hs2
  obtain ⟨h1, h2, h3⟩ := h
  refine ⟨?_, h2, ?_⟩
  · intro x hx mm hm
    simp only [List.length_set] at hx
    by_cases hxI : x = i
    · subst hxI
      rw [getD_set_self _ _ _ _ hi] at hm
      exact h1 x hx mm (by rw [hq]; exact List.mem_cons_of_mem _ hm)
    · rw [getD_set_ne _ _ _ _ _ hxI] at hm
      exact h1 x hx mm hm
  · intro kk ii hk
    simp only [List.length_set]
    exact h3 kk ii hk

theorem SyncInv_run (T : Nat) : ∀ (s : SyncQueue), SyncInv s → SyncInv (syncRun s T).2 := by
  induction T with
  | zero => intro s h; exact h
  | succ T ih =>
    intro s h
    rcases hn : syncNextIdx s with _ | ⟨i, m, s2⟩
    · rw [syncRun_none hn]; exact h
    · simp only [syncRun, hn]
      exact ih s2 (SyncInv_next h hn)

theorem cdist_succ_self (n k : Nat) (hk : k < n) : cdist n ((k + 1) % n) k = n - 1 := by
  rcases Nat.lt_or_ge (k + 1) n with h | h
  · rw [Nat.mod_eq_of_lt h]
    unfold cdist; split <;> omega
  · have hkn : k + 1 = n := by omega
    have hz : (k + 1) % n = 0 := by rw [hkn]; exact Nat.mod_self n
    rw [hz]
    unfold cdist; split <;> omega

/-- If no emission between trace positions `t1` and `t1 + d` touches slot
`x`, the queue of slot `x` is unchanged between the corresponding states. -/
theorem syncRun_unchanged (s0 : SyncQueue) (T x t1 : Nat) :
    ∀ d, (∀ r e, t1 ≤ r → r < t1 + d → (syncRun s0 T).1.get? r = some e → e.1 ≠ x) →
      t1 + d ≤ (syncRun s0 T).1.length →
      (syncRun s0 (t1 + d)).2.request_queues.getD x [] =
        (syncRun s0 t1).2.request_queues.getD x [] := by
  intro d
  induction d with
  | zero => intro _ _; rfl
  | succ d ih =>
    intro hno hlen
    have hr : t1 + d < (syncRun s0 T).1.length := by omega
    obtain ⟨e, he⟩ : ∃ e, (syncRun s0 T).1.get? (t1 + d) = some e :=
      ⟨_, List.get?_eq_get hr⟩
    have hstep := syncRun_get? s0 (t1 + d) e he
    obtain ⟨_, ⟨rest, hq, hs2⟩, _⟩ := syncNextIdx_some hstep
    have hx : e.1 ≠ x := hno (t1 + d) e (by omega) (by omega) he
    calc (syncRun s0 (t1 + (d + 1))).2.request_queues.getD x []
        = (syncRun s0 ((t1 + d) + 1)).2.request_queues.getD x [] := by
          rw [show t1 + (d + 1) = (t1 + d) + 1 by omega]
      _ = (syncRun s0 (t1 + d)).2.request_queues.getD x [] := by
          rw [hs2]
          exact getD_set_ne _ _ _ _ _ (fun hh => hx hh.symm)
      _ = (syncRun s0 t1).2.request_queues.getD x [] :=
          ih (fun r e hr1 hr2 hre => hno r e hr1 (by omega) hre) (by omega)

/-- Core round-robin property of the synchronous queue, slot-level: between
two successive emissions at slot `k`, every other slot that is non-empty
right after the first of them must itself be emitted from — assuming it is
not leads to a contradiction. -/
theorem sync_rr_core (s0 : SyncQueue) (T p q k j : Nat) (mp mq : TaggedMessage)
    (hp : (syncRun s0 T).1.get? p = some (k, mp))
    (hq : (syncRun s0 T).1.get? q = some (k, mq))
    (hpq : p < q)
    (hbet : ∀ r e, p < r → r < q → (syncRun s0 T).1.get? r = some e → e.1 ≠ k)
    (hnoj : ∀ r e, p < r → r < q → (syncRun s0 T).1.get? r = some e → e.1 ≠ j)
    (hjk : j ≠ k)
    (hjlt : j < s0.request_queues.length)
    (hjne : (syncRun s0 (p + 1)).2.request_queues.getD j [] ≠ []) :
    False := by
  have hqlen : q < (syncRun s0 T).1.length := by
    rcases List.get?_eq_some.mp hq with ⟨hh, _⟩
    exact hh
  -- the step producing trace position p
  have hstep_p := syncRun_get? s0 p (k, mp) hp
  obtain ⟨hkp, ⟨restp, hqp, hs2p⟩, _⟩ := syncNextIdx_some hstep_p
  have hlenp := (syncRun_len_map p s0).1
  have hk_lt : k < s0.request_queues.length := by rw [← hlenp]; exact hkp
  have hn0 : 0 < s0.request_queues.length := by omega
  -- abbreviations
  have hlen_all : ∀ t, (syncRun s0 t).2.request_queues.length =
      s0.request_queues.length := fun t => (syncRun_len_map t s0).1
  -- queue j is untouched (hence non-empty) at every state in [p+1, q]
  have hjne_at : ∀ d, p + 1 + d ≤ q →
      (syncRun s0 (p + 1 + d)).2.request_queues.getD j [] ≠ [] := by
    intro d hd
    rw [syncRun_unchanged s0 T j (p + 1) d
      (fun r e hr1 hr2 hre => hnoj r e (by omega) (by omega) hre) (by omega)]
    exact hjne
  -- queue k is untouched between p+1 and q
  have hkne_at : ∀ d, p + 1 + d ≤ q →
      (syncRun s0 (p + 1 + d)).2.request_queues.getD k [] ≠ [] := by
    intro d hd
    have hstep_q := syncRun_get? s0 q (k, mq) hq
    obtain ⟨_, ⟨restq, hqq, _⟩, _⟩ := syncNextIdx_some hstep_q
    have h1 : (syncRun s0 (p + 1 + (q - (p + 1)))).2.request_queues.getD k [] =
        (syncRun s0 (p + 1)).2.request_queues.getD k [] :=
      syncRun_unchanged s0 T k (p + 1) (q - (p + 1))
        (fun r e hr1 hr2 hre => hbet r e (by omega) (by omega) hre) (by omega)
    have h2 : (syncRun s0 (p + 1 + d)).2.request_queues.getD k [] =
        (syncRun s0 (p + 1)).2.request_queues.getD k [] :=
      syncRun_unchanged s0 T k (p + 1) d
        (fun r e hr1 hr2 hre => hbet r e (by omega) (by omega) hre) (by omega)
    rw [h2, ← h1, show p + 1 + (q - (p + 1)) = q by omega, hqq]
    simp
  -- main induction: the cursor stays strictly closer to j than to k
  have AUX : ∀ d, p + 1 + d ≤ q →
      cdist s0.request_queues.length
        ((syncRun s0 (p + 1 + d)).2.key_index % s0.request_queues.length) j <
      cdist s0.request_queues.length
        ((syncRun s0 (p + 1 + d)).2.key_index % s0.request_queues.length) k := by
    intro d
    induction d with
    | zero =>
      intro _
      have hc : (syncRun s0 (p + 1)).2.key_index =
          (k + 1) % s0.request_queues.length := by
        rw [hs2p]
        simp only
        rw [hlenp]
      rw [show p + 1 + 0 = p + 1 by omega, hc,
          Nat.mod_mod_of_dvd _ (dvd_refl _), cdist_succ_self _ _ hk_lt]
      have hcc : (k + 1) % s0.request_queues.length < s0.request_queues.length :=
        Nat.mod_lt _ hn0
      have h1 : cdist s0.request_queues.length
          ((k + 1) % s0.request_queues.length) j < s0.request_queues.length :=
        cdist_lt _ _ _ hcc hjlt
      have h2 : cdist s0.request_queues.length
            ((k + 1) % s0.request_queues.length) j ≠
          cdist s0.request_queues.length ((k + 1) % s0.request_queues.length) k := by
        intro he
        exact hjk (cdist_inj _ _ _ _ hcc hjlt hk_lt he)
      have h3 := cdist_succ_self _ _ hk_lt
      omega
    | succ d ih =>
      intro hd
      have ihd := ih (by omega)
      -- the emission at trace position p+1+d
      have hr : p + 1 + d < (syncRun s0 T).1.length := by omega
      obtain ⟨e, he⟩ : ∃ e, (syncRun s0 T).1.get? (p + 1 + d) = some e :=
        ⟨_, List.get?_eq_get hr⟩
      have hstep := syncRun_get? s0 (p + 1 + d) e he
      obtain ⟨helt, ⟨rest, hqe, hs2⟩, hmin⟩ := syncNextIdx_some hstep
      have hek : e.1 ≠ k := hbet _ e (by omega) (by omega) he
      have hej : e.1 ≠ j := hnoj _ e (by omega) (by omega) he
      have hlenr := hlen_all (p + 1 + d)
      have helt2 : e.1 < s0.request_queues.length := by rw [← hlenr]; exact helt
      have hcur : (syncRun s0 (p + 1 + d)).2.key_index % s0.request_queues.length <
          s0.request_queues.length := Nat.mod_lt _ hn0
      -- minimality over the non-empty slots j and k (rewritten to length n)
      rw [hlenr] at hmin
      have hminj := hmin j hjlt (hjne_at d (by omega))
      have hminj2 : cdist s0.request_queues.length
          ((syncRun s0 (p + 1 + d)).2.key_index % s0.request_queues.length) e.1 <
          cdist s0.request_queues.length
          ((syncRun s0 (p + 1 + d)).2.key_index % s0.request_queues.length) j := by
        rcases Nat.lt_or_ge (cdist s0.request_queues.length
          ((syncRun s0 (p + 1 + d)).2.key_index % s0.request_queues.length) e.1)
          (cdist s0.request_queues.length
          ((syncRun s0 (p + 1 + d)).2.key_index % s0.request_queues.length) j) with h | h
        · exact h
        · exfalso
          have heq : cdist s0.request_queues.length
              ((syncRun s0 (p + 1 + d)).2.key_index % s0.request_queues.length) e.1 =
              cdist s0.request_queues.length
              ((syncRun s0 (p + 1 + d)).2.key_index % s0.request_queues.length) j := by
            omega
          exact hej (cdist_inj _ _ _ _ hcur helt2 hjlt heq)
      -- cursor after the step
      have hcnew : (syncRun s0 ((p + 1 + d) + 1)).2.key_index =
          (e.1 + 1) % s0.request_queues.length := by
        rw [hs2]
        simp only
        rw [hlenr]
      have hshiftj := cdist_shift s0.request_queues.length
        ((syncRun s0 (p + 1 + d)).2.key_index % s0.request_queues.length) e.1 j
        hcur helt2 hjlt (by omega)
      have hshiftk := cdist_shift s0.request_queues.length
        ((syncRun s0 (p + 1 + d)).2.key_index % s0.request_queues.length) e.1 k
        hcur helt2 hk_lt (by omega)
      rw [show p + 1 + (d + 1) = (p + 1 + d) + 1 by omega, hcnew,
          Nat.mod_mod_of_dvd _ (dvd_refl _), hshiftj, hshiftk]
      omega
  -- contradiction at position q
  have hfin := AUX (q - (p + 1)) (by omega)
  rw [show p + 1 + (q - (p + 1)) = q by omega] at hfin
  have hstep_q := syncRun_get? s0 q (k, mq) hq
  obtain ⟨hkq, ⟨restq, hqq, _⟩, hminq⟩ := syncNextIdx_some hstep_q
  have hlenq := hlen_all q
  rw [hlenq] at hminq
  have hminqj : cdist s0.request_queues.length
      ((syncRun s0 q).2.key_index % s0.request_queues.length) k ≤
      cdist s0.request_queues.length
      ((syncRun s0 q).2.key_index % s0.request_queues.length) j :=
    hminq j hjlt (by
      have := hjne_at (q - (p + 1)) (by omega)
      rw [show p + 1 + (q - (p + 1)) = q by omega] at this
      exact this)
  omega

/-- Per-slot state of `AsyncRequestQueue`: the source stores the PUT lane
(`put_queues_`), GET lane (`get_queues_`), `access_counters_`,
`is_in_put_queue_` (an `int` used as a boolean) and `is_first_update_` as
index-parallel vectors; they are bundled here into one record per slot. -/
structure AsyncSlot where
  put_q : List TaggedMessage
  get_q : List TaggedMessage
  counter : Nat
  is_put : Bool
  first : Bool
deriving DecidableEq

/-- State of `AsyncRequestQueue`, with `N` the `num_mem_servers_` constant
passed to the constructor. -/
structure AsyncQueue where
  key_map : List (String × Nat)
  slots : List AsyncSlot
  key_index : Nat
  N : Nat
deriving DecidableEq

/-- A fresh `AsyncRequestQueue(num_mem_servers)`: no keys, no slots; the
cursor field is declared in `core/rpc.h` (not among the sources) and starts
at 0, the value the round-robin scan of the `.cc` requires. -/
def asyncEmpty (numMemServers : Nat) : AsyncQueue := ⟨[], [], 0, numMemServers⟩

def getSlot (s : AsyncQueue) (i : Nat) : AsyncSlot :=
  s.slots.getD i ⟨[], [], 0, true, true⟩

/-- `AsyncRequestQueue::Enqueue`: extract the key; on first sight create a
slot with empty lanes, counter 0, `is_in_put_queue_ = 1`,
`is_first_update_ = true`; then, under the slot lock, `CHECK_LT` the chosen
lane's size against `num_mem_servers_` (a failed `CHECK` aborts the
process, modelled as `none`) and append the envelope to the PUT or GET lane
according to its tag (`CHECK_EQ` aborts on any other tag). -/
def asyncEnqueue (s : AsyncQueue) (tag : Nat) (data : Payload) : Option AsyncQueue :=
  let key := ExtractKey tag data
  let s1 : AsyncQueue :=
    match lookupKey s.key_map key with
    | some _ => s
    | none => ⟨s.key_map ++ [(key, s.slots.length)],
               s.slots ++ [⟨[], [], 0, true, true⟩], s.key_index, s.N⟩
  match lookupKey s1.key_map key with
  | none => none
  | some idx =>
    let sl : AsyncSlot := s1.slots.getD idx ⟨[], [], 0, true, true⟩
    if tag = MTYPE_PUT_REQUEST ∧ s1.N ≤ sl.put_q.length then none
    else if tag = MTYPE_GET_REQUEST ∧ s1.N ≤ sl.get_q.length then none
    else if tag = MTYPE_GET_REQUEST then
      some { s1 with slots := s1.slots.set idx { sl with get_q := sl.get_q ++ [⟨tag, data⟩] } }
    else if tag = MTYPE_PUT_REQUEST then
      some { s1 with slots := s1.slots.set idx { sl with put_q := sl.put_q ++ [⟨tag, data⟩] } }
    else none

/-- Whether the slot's current lane (`is_in_put_queue_`) is non-empty — the
condition under which `AsyncRequestQueue::NextRequest` pops at a slot. -/
def laneNonEmpty (sl : AsyncSlot) : Bool :=
  if sl.is_put then !sl.put_q.isEmpty else !sl.get_q.isEmpty

/-- One successful pass of `AsyncRequestQueue::NextRequest` (sequential,
dequeue-only semantics): scan cyclically from `key_index_` for the first
slot whose current lane is non-empty; pop that lane's head and increment
`access_counters_`; on the very first drain of the slot
(`is_first_update_`) flip to the GET lane and reset the counter; when the
counter reaches `num_mem_servers_` flip the lane and reset the counter;
advance the cursor past the slot.  In the PUT branch the source performs
the first-drain reset before the `counter == num_mem_servers_` test, which
then compares `0` with `num_mem_servers_` and assigns the same values
again when it fires, so the first-drain outcome is `(0, GET, cleared)`
unconditionally. -/
def asyncNextIdx (s : AsyncQueue) : Option (Nat × TaggedMessage × AsyncQueue) :=
  match findSlot s.slots.length (fun i => laneNonEmpty (getSlot s i))
      s.key_index s.slots.length with
  | none => none
  | some i =>
    if (getSlot s i).is_put then
      match (getSlot s i).put_q with
      | [] => none
      | m :: rest =>
        some (i, m, { s with
          slots := s.slots.set i
            (if (getSlot s i).first then
              ⟨rest, (getSlot s i).get_q, 0, false, false⟩
             else if (getSlot s i).counter + 1 = s.N then
              ⟨rest, (getSlot s i).get_q, 0, false, (getSlot s i).first⟩
             else
              ⟨rest, (getSlot s i).get_q, (getSlot s i).counter + 1,
                (getSlot s i).is_put, (getSlot s i).first⟩),
          key_index := (i + 1) % s.slots.length })
    else
      match (getSlot s i).get_q with
      | [] => none
      | m :: rest =>
        some (i, m, { s with
          slots := s.slots.set i
            (if (getSlot s i).counter + 1 = s.N then
              ⟨(getSlot s i).put_q, rest, 0, true, (getSlot s i).first⟩
             else
              ⟨(getSlot s i).put_q, rest, (getSlot s i).counter + 1,
                (getSlot s i).is_put, (getSlot s i).first⟩),
          key_index := (i + 1) % s.slots.length })

/-- Abstract per-slot scheduling state `(access_counter, is_in_put_queue,
is_first_update)` and its update on one successful drain at the slot,
mirroring the branch structure of `AsyncRequestQueue::NextRequest`. -/
def slotStep (N : Nat) : Nat × Bool × Bool → Nat × Bool × Bool
  | (c, p, f) =>
    if p then
      if f then (0, false, false)
      else if c + 1 = N then (0, false, f)
      else (c + 1, p, f)
    else
      if c + 1 = N then (0, true, f)
      else (c + 1, p, f)

/-- The tag an emission drains when the slot is in the given scheduling
state: the PUT lane yields `PUT_REQUEST` envelopes, the GET lane
`GET_REQUEST` ones. -/
def slotOutTag (st : Nat × Bool × Bool) : Nat :=
  if st.2.1 then MTYPE_PUT_REQUEST else MTYPE_GET_REQUEST

def slotState (s : AsyncQueue) (i : Nat) : Nat × Bool × Bool :=
  ((getSlot s i).counter, (getSlot s i).is_put, (getSlot s i).first)

/-- Every envelope in a PUT lane carries tag `PUT_REQUEST` and every
envelope in a GET lane carries tag `GET_REQUEST`; `AsyncRequestQueue::
Enqueue` routes envelopes by tag, so every reachable state satisfies
this. -/
def laneTagged (s : AsyncQueue) : Prop :=
  ∀ sl ∈ s.slots, (∀ m ∈ sl.put_q, m.tag = MTYPE_PUT_REQUEST) ∧
    (∀ m ∈ sl.get_q, m.tag = MTYPE_GET_REQUEST)

/-- Characterization of one successful asynchronous `NextRequest` call: the
popped slot is the cyclically closest slot (from the cursor) whose current
lane is non-empty; the returned envelope is that lane's head; the slot's
scheduling state advances by `slotStep`; the other lane and all other slots
are untouched; the cursor advances just past the slot. -/
theorem asyncNextIdx_some {s : AsyncQueue} {i : Nat} {m : TaggedMessage} {s2 : AsyncQueue}
    (h : asyncNextIdx s = some (i, m, s2)) :
    i < s.slots.length ∧
    laneNonEmpty (getSlot s i) = true ∧
    s2.key_map = s.key_map ∧ s2.N = s.N ∧
    s2.key_index = (i + 1) % s.slots.length ∧
    s2.slots.length = s.slots.length ∧
    (∀ x, x ≠ i → getSlot s2 x = getSlot s x) ∧
    (getSlot s2 i).counter = (slotStep s.N (slotState s i)).1 ∧
    (getSlot s2 i).is_put = (slotStep s.N (slotState s i)).2.1 ∧
    (getSlot s2 i).first = (slotStep s.N (slotState s i)).2.2 ∧
    (if (getSlot s i).is_put then
       (getSlot s i).put_q = m :: (getSlot s2 i).put_q ∧
       (getSlot s2 i).get_q = (getSlot s i).get_q
     else
       (getSlot s i).get_q = m :: (getSlot s2 i).get_q ∧
       (getSlot s2 i).put_q = (getSlot s i).put_q) ∧
    (∀ x, x < s.slots.length → laneNonEmpty (getSlot s x) = true →
       cdist s.slots.length (s.key_index % s.slots.length) i ≤
       cdist s.slots.length (s.key_index % s.slots.length) x) := by
  unfold asyncNextIdx at h
  split at h
  · exact absurd h (by simp)
  · next j hf =>
    have hj := findSlot_some _ _ _ _ _ hf
    have hmin := findSlot_min _ _ _ _ _ hf
    split at h
    · next hput =>
      split at h
      · exact absurd h (by simp)
      · next m0 rest hpq =>
        have hinj : j = i ∧ m0 = m := by
          simp only [Option.some.injEq, Prod.mk.injEq] at h
          exact ⟨h.1, h.2.1⟩
        obtain ⟨hji, hm0⟩ := hinj
        subst hji; subst hm0
        have hs2 : s2 = { s with
            slots := s.slots.set j
              (if (getSlot s j).first then
                ⟨rest, (getSlot s j).get_q, 0, false, false⟩
               else if (getSlot s j).counter + 1 = s.N then
                ⟨rest, (getSlot s j).get_q, 0, false, (getSlot s j).first⟩
               else
                ⟨rest, (getSlot s j).get_q, (getSlot s j).counter + 1,
                  (getSlot s j).is_put, (getSlot s j).first⟩),
            key_index := (j + 1) % s.slots.length } := by
          simp only [Option.some.injEq, Prod.mk.injEq] at h
          exact h.2.2.symm
        subst hs2
        have hget : ∀ (sl : AsyncSlot), getSlot { s with
            slots := s.slots.set j sl,
            key_index := (j + 1) % s.slots.length } j = sl := by
          intro sl
          unfold getSlot
          exact getD_set_self _ _ _ _ hj.2
        have hgetx : ∀ (sl : AsyncSlot) x, x ≠ j → getSlot { s with
            slots := s.slots.set j sl,
            key_index := (j + 1) % s.slots.length } x = getSlot s x := by
          intro sl x hx
          unfold getSlot
          exact getD_set_ne _ _ _ _ _ hx
        refine ⟨hj.2, hj.1, rfl, rfl, rfl, by simp, ?_, ?_, ?_, ?_, ?_, ?_⟩
        · intro x hx
          split <;> exact hgetx _ x hx
        · rcases hfi : (getSlot s j).first with _ | _
          · by_cases hcnt : (getSlot s j).counter + 1 = s.N <;>
              simp [hget, hfi, hcnt, slotStep, slotState, hput]
          · simp [hget, hfi, slotStep, slotState, hput]
        · rcases hfi : (getSlot s j).first with _ | _
          · by_cases hcnt : (getSlot s j).counter + 1 = s.N <;>
              simp [hget, hfi, hcnt, slotStep, slotState, hput]
          · simp [hget, hfi, slotStep, slotState, hput]
        · rcases hfi : (getSlot s j).first with _ | _
          · by_cases hcnt : (getSlot s j).counter + 1 = s.N <;>
              simp [hget, hfi, hcnt, slotStep, slotState, hput]
          · simp [hget, hfi, slotStep, slotState, hput]
        · rw [if_pos hput]
          rcases hfi : (getSlot s j).first with _ | _
          · by_cases hcnt : (getSlot s j).counter + 1 = s.N <;>
              simp [hget, hfi, hcnt, hpq]
          · simp [hget, hfi, hpq]
        · intro x hx hne
          exact hmin x hx hne
    · next hput =>
      split at h
      · exact absurd h (by simp)
      · next m0 rest hgq =>
        have hinj : j = i ∧ m0 = m := by
          simp only [Option.some.injEq, Prod.mk.injEq] at h
          exact ⟨h.1, h.2.1⟩
        obtain ⟨hji, hm0⟩ := hinj
        subst hji; subst hm0
        have hs2 : s2 = { s with
            slots := s.slots.set j
              (if (getSlot s j).counter + 1 = s.N then
                ⟨(getSlot s j).put_q, rest, 0, true, (getSlot s j).first⟩
               else
                ⟨(getSlot s j).put_q, rest, (getSlot s j).counter + 1,
                  (getSlot s j).is_put, (getSlot s j).first⟩),
            key_index := (j + 1) % s.slots.length } := by
          simp only [Option.some.injEq, Prod.mk.injEq] at h
          exact h.2.2.symm
        subst hs2
        have hget : ∀ (sl : AsyncSlot), getSlot { s with
            slots := s.slots.set j sl,
            key_index := (j + 1) % s.slots.length } j = sl := by
          intro sl
          unfold getSlot
          exact getD_set_self _ _ _ _ hj.2
        have hgetx : ∀ (sl : AsyncSlot) x, x ≠ j → getSlot { s with
            slots := s.slots.set j sl,
            key_index := (j + 1) % s.slots.length } x = getSlot s x := by
          intro sl x hx
          unfold getSlot
          exact getD_set_ne _ _ _ _ _ hx
        have hputf : (getSlot s j).is_put = false := by
          rcases hh : (getSlot s j).is_put with _ | _
          · rfl
          · exact absurd hh hput
        refine ⟨hj.2, hj.1, rfl, rfl, rfl, by simp, ?_, ?_, ?_, ?_, ?_, ?_⟩
        · intro x hx
          split <;> exact hgetx _ x hx
        · by_cases hcnt : (getSlot s j).counter + 1 = s.N <;>
            simp [hget, hcnt, slotStep, slotState, hputf]
        · by_cases hcnt : (getSlot s j).counter + 1 = s.N <;>
            simp [hget, hcnt, slotStep, slotState, hputf]
        · by_cases hcnt : (getSlot s j).counter + 1 = s.N <;>
            simp [hget, hcnt, slotStep, slotState, hputf]
        · rw [if_neg hput]
          by_cases hcnt : (getSlot s j).counter + 1 = s.N <;>
            simp [hget, hcnt, hgq]
        · intro x hx hne
          exact hmin x hx hne

/-- Iterated async `NextRequest` (trace of (slot, envelope) emissions). -/
def asyncRun (s : AsyncQueue) : Nat → List (Nat × TaggedMessage) × AsyncQueue
  | 0 => ([], s)
  | n + 1 =>
    match asyncNextIdx s with
    | none => ([], s)
    | some (i, m, s2) =>
        let r := asyncRun s2 n
        ((i, m) :: r.1, r.2)

theorem asyncRun_none {s : AsyncQueue} (h : asyncNextIdx s = none) (T : Nat) :
    asyncRun s T = ([], s) := by
  cases T with
  | zero => rfl
  | succ t => simp [asyncRun, h]

theorem getD_eq_get {α : Type} (l : List α) (i : Nat) (d : α) (h : i < l.length) :
    l.getD i d = l.get ⟨i, h⟩ := by
  induction l generalizing i with
  | nil => simp at h
  | cons a t ih =>
    cases i with
    | zero => rfl
    | succ j => simpa [List.getD_cons_succ] using ih j (by simpa using h)

def slotTagged (sl : AsyncSlot) : Prop :=
  (∀ m ∈ sl.put_q, m.tag = MTYPE_PUT_REQUEST) ∧
  (∀ m ∈ sl.get_q, m.tag = MTYPE_GET_REQUEST)

theorem laneTagged_get {s : AsyncQueue} (h : laneTagged s) (i : Nat)
    (hi : i < s.slots.length) : slotTagged (getSlot s i) := by
  have hmem : getSlot s i ∈ s.slots := by
    unfold getSlot
    rw [getD_eq_get _ _ _ hi]
    exact List.get_mem _ _ _
  exact h _ hmem

theorem laneTagged_of_get (s : AsyncQueue)
    (h : ∀ i, i < s.slots.length → slotTagged (getSlot s i)) : laneTagged s := by
  intro sl hsl
  rcases List.mem_iff_get.mp hsl with ⟨⟨i, hi⟩, hg⟩
  have := h i hi
  unfold getSlot at this
  rw [getD_eq_get _ _ _ hi] at this
  rw [← hg]
  exact this

theorem laneTagged_next {s : AsyncQueue} {i : Nat} {m : TaggedMessage} {s2 : AsyncQueue}
    (h : laneTagged s) (hn : asyncNextIdx s = some (i, m, s2)) : laneTagged s2 := by
  obtain ⟨hilt, hlane, hmap, hN, hcur, hlen, hother, hc, hp, hf, hlanes, hmin⟩ :=
    asyncNextIdx_some hn
  apply laneTagged_of_get
  intro x hx
  by_cases hxi : x = i
  · subst hxi
    have hold := laneTagged_get h x (by omega)
    split at hlanes
    · obtain ⟨hput, hget⟩ := hlanes
      constructor
      · intro mm hm
        exact hold.1 mm (by rw [hput]; exact List.mem_cons_of_mem _ hm)
      · intro mm hm
        exact hold.2 mm (by rw [← hget]; exact hm)
    · obtain ⟨hget, hput⟩ := hlanes
      constructor
      · intro mm hm
        exact hold.1 mm (by rw [← hput]; exact hm)
      · intro mm hm
        exact hold.2 mm (by rw [hget]; exact List.mem_cons_of_mem _ hm)
  · rw [hother x hxi]
    exact laneTagged_get h x (by omega)

/-- Master lemma for the async queue: with well-tagged lanes, the sequence
of tags emitted at a fixed slot is the output sequence of the per-slot
scheduling automaton `slotStep` started at the slot's current state. -/
theorem emissionsAt_tags (T : Nat) : ∀ (s : AsyncQueue) (i : Nat), laneTagged s →
    ∀ t m, (emissionsAt i (asyncRun s T).1).get? t = some m →
      m.tag = slotOutTag ((slotStep s.N)^[t] (slotState s i)) := by
  induction T with
  | zero => intro s i _ t m h; simp [asyncRun, emissionsAt] at h
  | succ T ih =>
    intro s i hlt t m h
    rcases hn : asyncNextIdx s with _ | ⟨j, m0, s2⟩
    · rw [asyncRun_none hn] at h; simp [emissionsAt] at h
    · simp only [asyncRun, hn] at h
      obtain ⟨hjlt, hlane, hmap, hN, hcur, hlen, hother, hc, hp, hf, hlanes, hmin⟩ :=
        asyncNextIdx_some hn
      have hlt2 : laneTagged s2 := laneTagged_next hlt hn
      by_cases hji : j = i
      · subst hji
        rw [emissionsAt_cons, if_pos rfl] at h
        cases t with
        | zero =>
          simp only [List.get?_cons_zero, Option.some.injEq] at h
          subst h
          have hold := laneTagged_get hlt j hjlt
          rcases hip : (getSlot s j).is_put with _ | _
          · rw [if_neg (by rw [hip]; exact Bool.false_ne_true)] at hlanes
            have hm : m0 ∈ (getSlot s j).get_q := by
              rw [hlanes.1]; exact List.mem_cons_self _ _
            rw [hold.2 m0 hm]
            simp [slotOutTag, slotState, hip]
          · rw [if_pos hip] at hlanes
            have hm : m0 ∈ (getSlot s j).put_q := by
              rw [hlanes.1]; exact List.mem_cons_self _ _
            rw [hold.1 m0 hm]
            simp [slotOutTag, slotState, hip]
        | succ t =>
          simp only [List.get?_cons_succ] at h
          have hres := ih s2 j hlt2 t m h
          have hst : slotState s2 j = slotStep s.N (slotState s j) := by
            unfold slotState
            rw [hc, hp, hf]
            rfl
          rw [hres, hst, hN, Function.iterate_succ_apply]
      · rw [emissionsAt_cons, if_neg hji] at h
        have hres := ih s2 i hlt2 t m h
        have hst : slotState s2 i = slotState s i := by
          unfold slotState
          rw [hother i (fun he => hji he.symm)]
        rw [hres, hst, hN]

theorem succ_divmod_full {N t : Nat} (hN : 0 < N) (h : t % N + 1 = N) :
    (t + 1) % N = 0 ∧ (t + 1) / N = t / N + 1 := by
  have ht := Nat.div_add_mod t N
  have h1 : t + 1 = 0 + N * (t / N + 1) := by rw [Nat.mul_succ]; omega
  constructor
  · rw [h1, Nat.add_mul_mod_self_left, Nat.zero_mod]
  · rw [h1, Nat.add_mul_div_left _ _ hN, Nat.zero_div, Nat.zero_add]

theorem succ_divmod_part {N t : Nat} (hN : 0 < N) (h : t % N + 1 < N) :
    (t + 1) % N = t % N + 1 ∧ (t + 1) / N = t / N := by
  have ht := Nat.div_add_mod t N
  have h1 : t + 1 = (t % N + 1) + N * (t / N) := by omega
  constructor
  · rw [h1, Nat.add_mul_mod_self_left, Nat.mod_eq_of_lt h]
  · rw [h1, Nat.add_mul_div_left _ _ hN, Nat.div_eq_of_lt h, Nat.zero_add]

/-- Closed form of the per-slot automaton from the just-primed state
(GET lane, counter 0): runs of `N` GETs and `N` PUTs alternate, so the tag
of the `t`-th emission is decided by the parity of `t / N`. -/
theorem slotStep_iterate {N : Nat} (hN : 0 < N) (t : Nat) :
    (slotStep N)^[t] (0, false, false) =
      (t % N, decide ((t / N) % 2 = 1), false) := by
  induction t with
  | zero => simp [Nat.zero_mod, Nat.zero_div]
  | succ t ih =>
    rw [Function.iterate_succ_apply', ih]
    rcases Nat.lt_or_ge (t % N + 1) N with h | h
    · obtain ⟨hm, hd⟩ := succ_divmod_part hN h
      rw [hm, hd]
      by_cases hb : (t / N) % 2 = 1 <;>
        simp [slotStep, hb, Nat.ne_of_lt h]
    · have he : t % N + 1 = N := by
        have := Nat.mod_lt t hN
        omega
      obtain ⟨hm, hd⟩ := succ_divmod_full hN he
      rw [hm, hd]
      by_cases hb : (t / N) % 2 = 1
      · have hb1 : (t / N + 1) % 2 = 0 := by omega
        simp [slotStep, hb, hb1, he]
      · have hb1 : (t / N + 1) % 2 = 1 := by omega
        simp [slotStep, hb, hb1, he]

/-- A slot parked in the PUT lane with an empty PUT FIFO is never emitted
from and never changes, no matter how many messages its GET FIFO holds. -/
theorem asyncRun_skips_empty_put (T : Nat) : ∀ (s : AsyncQueue) (i : Nat),
    (getSlot s i).is_put = true → (getSlot s i).put_q = [] →
    emissionsAt i (asyncRun s T).1 = [] ∧
    getSlot (asyncRun s T).2 i = getSlot s i := by
  induction T with
  | zero => intro s i _ _; exact ⟨rfl, rfl⟩
  | succ T ih =>
    intro s i hput hemp
    rcases hn : asyncNextIdx s with _ | ⟨j, m, s2⟩
    · rw [asyncRun_none hn]; exact ⟨rfl, rfl⟩
    · obtain ⟨hjlt, hlane, hmap, hN, hcur, hlen, hother, hc, hp, hf, hlanes, hmin⟩ :=
        asyncNextIdx_some hn
      have hji : j ≠ i := by
        intro he
        subst he
        rw [laneNonEmpty, hput, if_pos rfl, hemp] at hlane
        simp at hlane
      simp only [asyncRun, hn]
      rw [emissionsAt_cons, if_neg hji]
      have hsl : getSlot s2 i = getSlot s i := hother i (fun he => hji he.symm)
      have hrec := ih s2 i (by rw [hsl]; exact hput) (by rw [hsl]; exact hemp)
      exact ⟨hrec.1, by rw [hrec.2, hsl]⟩

/-- `RPCRequest`: an in-flight send record (destination, kind, failures
counter, serialized payload).  The MPI handle, status and start time carry
no scheduling information and are dropped. -/
structure RPCRec where
  target : Nat
  rpc_type : Nat
  failures : Nat
  payload : Payload
deriving DecidableEq

/-- `RPCRequest::RPCRequest`: serialize the message and initialize
`failures` to zero. -/
def mkRPCRequest (tgt method : Nat) (msg : Payload) : RPCRec :=
  ⟨tgt, method, 0, msg⟩

/-- The outbound half of `NetworkThread`: the `pending_sends_` list. -/
structure NetState where
  pending_sends : List RPCRec
deriving DecidableEq

/-- `NetworkThread::Send`: create the record and append it to the pending
list under the send lock. -/
def ntSend (st : NetState) (dst method : Nat) (msg : Payload) : NetState :=
  ⟨st.pending_sends ++ [mkRPCRequest dst method msg]⟩

/-- `NetworkThread::Broadcast`: `Send` to each peer `0 .. size()-2`, i.e.
every peer except the top-rank coordinator. -/
def ntBroadcast (size : Nat) (st : NetState) (method : Nat) (msg : Payload) : NetState :=
  (List.range (size - 1)).foldl (fun acc i => ntSend acc i method msg) st

/-- The response pool `response_queue_[kind][source]`: a FIFO of payloads
per (message kind, source) pair. -/
def Pool : Type := Nat → Nat → List Payload

/-- `NetworkThread::check_queue`: pop the head of the (kind, source) FIFO
if it is non-empty. -/
def check_queue (pool : Pool) (src type : Nat) : Option (Payload × Pool) :=
  match pool type src with
  | [] => none
  | d :: rest =>
      some (d, fun k s => if k = type ∧ s = src then rest else pool k s)

/-- `NetworkThread::TryRead` with `MPI::ANY_SOURCE`: scan the sources in
ascending order (`for i < world_->Get_size()`) and take the first hit. -/
def tryReadScan (pool : Pool) (type : Nat) : Nat → Nat → Option (Payload × Pool)
  | _, 0 => none
  | i, f + 1 =>
    match check_queue pool i type with
    | some r => some r
    | none => tryReadScan pool type (i + 1) f

/-- `NetworkThread::WaitForSync`: blocking-`Read` `count` envelopes of the
reply kind from any source, discarding them.  With no concurrent producer a
missing envelope blocks forever, modelled as `none`. -/
def waitForSync (pool : Pool) (size reply : Nat) : Nat → Option Pool
  | 0 => some pool
  | c + 1 =>
    match tryReadScan pool reply 0 size with
    | none => none
    | some (_, p2) => waitForSync p2 size reply c

/-- `NetworkThread::SyncBroadcast`: `Broadcast`, then `WaitForSync` for
`size() - 1` replies. -/
def ntSyncBroadcast (size : Nat) (st : NetState) (method reply : Nat) (msg : Payload)
    (pool : Pool) : NetState × Option Pool :=
  (ntBroadcast size st method msg, waitForSync pool size reply (size - 1))

/-- Number of queued envelopes of one kind across sources `0 .. size-1`. -/
def poolCount (pool : Pool) (type size : Nat) : Nat :=
  ((List.range size).map (fun s => (pool type s).length)).sum

/-- `NetworkThread::CollectActive`: walk the in-flight set; each finished
record is reaped, logging its `failures` counter when it is positive;
unfinished records stay.  `fin` is the outcome of `mpi_req.Test`. -/
def collectActive (fin : RPCRec → Bool) : List RPCRec → List RPCRec × List Nat
  | [] => ([], [])
  | r :: rest =>
    let tail := collectActive fin rest
    if fin r then
      (tail.1, if r.failures > 0 then r.failures :: tail.2 else tail.2)
    else (r :: tail.1, tail.2)

/-- Accumulated effect of iterating the send half of
`NetworkThread::NetworkLoop`. -/
structure LoopRun where
  pending : List RPCRec
  active : List RPCRec
  issued : List RPCRec
  logs : List Nat
deriving DecidableEq

/-- The send half of `NetworkThread::NetworkLoop` iterated `t` rounds: each
round drains `pending_sends_` by issuing every record through `Isend`
exactly once (recorded in `issued`) into the in-flight set, then
`CollectActive` reaps completions.  `fin` gives the per-round
`mpi_req.Test` outcome of each record. -/
def networkRun (fin : Nat → RPCRec → Bool) :
    List RPCRec → List RPCRec → Nat → LoopRun
  | pending, active, 0 => ⟨pending, active, [], []⟩
  | pending, active, t + 1 =>
    let ca := collectActive (fin t) (active ++ pending)
    let rest := networkRun fin [] ca.1 t
    ⟨rest.pending, rest.active, pending ++ rest.issued, ca.2 ++ rest.logs⟩

/-- Result of `NetworkThread::ProcessRequest` on one dequeued envelope:
either a fatal `CHECK` failure, or the handler for the tag invoked on the
materialized message, with the recorded outcome of `ParseFromArray`. -/
inductive ProcessResult where
  | abort : ProcessResult
  | handled : Nat → Bool → ProcessResult
deriving DecidableEq

/-- `NetworkThread::ProcessRequest`: materialize `HashGet` for
`GET_REQUEST`; otherwise `CHECK_EQ` the tag against `PUT_REQUEST` (a
mismatch aborts) and materialize `TableData`; call `ParseFromArray` — whose
boolean result the source discards — and invoke `handles_[tag]`
unconditionally.  `parseOk tag payload` models whether the payload parses
against the schema selected by the tag. -/
def processRequest (parseOk : Nat → Payload → Bool) (msg : TaggedMessage) :
    ProcessResult :=
  if msg.tag = MTYPE_GET_REQUEST then
    ProcessResult.handled msg.tag (parseOk msg.tag msg.data)
  else if msg.tag = MTYPE_PUT_REQUEST then
    ProcessResult.handled msg.tag (parseOk msg.tag msg.data)
  else ProcessResult.abort

theorem ExtractKey_put (d : Payload) : ExtractKey MTYPE_PUT_REQUEST d = d.key := rfl

theorem ExtractKey_get (d : Payload) : ExtractKey MTYPE_GET_REQUEST d = d.key := rfl

theorem ntSend_pending (st : NetState) (dst method : Nat) (msg : Payload) :
    (ntSend st dst method msg).pending_sends =
      st.pending_sends ++ [mkRPCRequest dst method msg] := rfl

theorem ntBroadcast_pending (size : Nat) (st : NetState) (method : Nat) (msg : Payload) :
    (ntBroadcast size st method msg).pending_sends =
      st.pending_sends ++
        (List.range (size - 1)).map (fun i => mkRPCRequest i method msg) := by
  unfold ntBroadcast
  generalize size - 1 = n
  induction n generalizing st with
  | zero => simp
  | succ n ih =>
    rw [List.range_succ, List.foldl_append, List.map_append,
        List.foldl_cons, List.foldl_nil, ntSend_pending, ih st]
    simp [List.append_assoc]

theorem count_range_map_target (n method : Nat) (msg : Payload) (tgt : Nat) :
    (((List.range n).map (fun i => mkRPCRequest i method msg)).filter
       (fun r => decide (r.target = tgt))).length = if tgt < n then 1 else 0 := by
  induction n with
  | zero => simp
  | succ n ih =>
    rw [List.range_succ, List.map_append, List.filter_append, List.length_append, ih]
    by_cases h : tgt < n
    · rw [if_pos h, if_pos (by omega)]
      have hne : ¬ n = tgt := by omega
      simp [mkRPCRequest, hne]
    · rw [if_neg h]
      by_cases he : tgt = n
      · subst he
        rw [if_pos (by omega)]
        simp [mkRPCRequest]
      · rw [if_neg (by omega)]
        have hne : ¬ n = tgt := fun hh => he hh.symm
        simp [mkRPCRequest, hne]

theorem tryReadScan_some (pool : Pool) (type : Nat) :
    ∀ fuel i d p2, tryReadScan pool type i fuel = some (d, p2) →
      ∃ src, i ≤ src ∧ src < i + fuel ∧
        pool type src = d :: p2 type src ∧
        (∀ k s, ¬(k = type ∧ s = src) → p2 k s = pool k s) := by
  intro fuel
  induction fuel with
  | zero => intro i d p2 h; simp [tryReadScan] at h
  | succ f ih =>
    intro i d p2 h
    unfold tryReadScan at h
    split at h
    · next r heq =>
      unfold check_queue at heq
      split at heq
      · exact absurd heq (by simp)
      · next d0 rest hpool =>
        have hr : d0 = d ∧
            (fun k s => if k = type ∧ s = i then rest else pool k s) = p2 := by
          cases h
          simp only [Option.some.injEq, Prod.mk.injEq] at heq
          exact ⟨heq.1, heq.2⟩
        obtain ⟨hd, hp⟩ := hr
        subst hd; subst hp
        refine ⟨i, le_refl _, by omega, ?_, ?_⟩
        · simp [hpool]
        · intro k s hks
          simp only [if_neg hks]
    · next heq =>
      obtain ⟨src, h1, h2, h3, h4⟩ := ih (i + 1) d p2 h
      exact ⟨src, by omega, by omega, h3, h4⟩

theorem sum_map_range_pop (f g : Nat → Nat) :
    ∀ n src, src < n → f src = g src + 1 → (∀ s, s ≠ src → f s = g s) →
    ((List.range n).map f).sum = ((List.range n).map g).sum + 1 := by
  intro n
  induction n with
  | zero => intro src h _ _; exact absurd h (Nat.not_lt_zero src)
  | succ n ih =>
    intro src hsrc hat helse
    rw [List.range_succ, List.map_append, List.map_append,
        List.sum_append, List.sum_append]
    by_cases h : src = n
    · have hmap : (List.range n).map f = (List.range n).map g := by
        apply List.map_congr_left
        intro x hx
        exact helse x (by simp at hx; omega)
      rw [hmap]
      have hfn : f n = g n + 1 := h ▸ hat
      simp [hfn]
      omega
    · have hrec := ih src (by omega) hat helse
      rw [hrec]
      have hfn : f n = g n := helse n (fun hh => h hh.symm)
      simp [hfn]
      omega

theorem waitForSync_consumes (size reply : Nat) :
    ∀ c pool p2, waitForSync pool size reply c = some p2 →
      poolCount p2 reply size + c = poolCount pool reply size ∧
      (∀ k s, k ≠ reply → p2 k s = pool k s) := by
  intro c
  induction c with
  | zero =>
    intro pool p2 h
    unfold waitForSync at h
    cases h
    exact ⟨rfl, fun k s _ => rfl⟩
  | succ c ih =>
    intro pool p2 h
    unfold waitForSync at h
    split at h
    · exact absurd h (by simp)
    · next r d pmid heq =>
      obtain ⟨src, h0, hlt, hpop, hframe⟩ := tryReadScan_some pool reply size 0 d pmid heq
      obtain ⟨ihc, ihf⟩ := ih pmid p2 h
      have hcount : poolCount pool reply size = poolCount pmid reply size + 1 := by
        unfold poolCount
        exact sum_map_range_pop (fun s => (pool reply s).length)
          (fun s => (pmid reply s).length) size src (by omega)
          (by
            show (pool reply src).length = (pmid reply src).length + 1
            rw [hpop]
            rfl)
          (fun s hs => by
            show (pool reply s).length = (pmid reply s).length
            rw [hframe reply s (fun hh => hs hh.2)])
      refine ⟨by omega, ?_⟩
      intro k s hk
      rw [ihf k s hk, hframe k s (fun hh => hk hh.1)]

theorem collectActive_mem (fin : RPCRec → Bool) :
    ∀ l r, r ∈ (collectActive fin l).1 → r ∈ l := by
  intro l
  induction l with
  | nil => intro r h; simp [collectActive] at h
  | cons a t ih =>
    intro r h
    unfold collectActive at h
    split at h
    · exact List.mem_cons_of_mem _ (ih r h)
    · rcases List.mem_cons.mp h with h | h
      · exact h ▸ List.mem_cons_self _ _
      · exact List.mem_cons_of_mem _ (ih r h)

theorem collectActive_logs (fin : RPCRec → Bool) :
    ∀ l, (∀ r ∈ l, r.failures = 0) → (collectActive fin l).2 = [] := by
  intro l
  induction l with
  | nil => intro _; rfl
  | cons a t ih =>
    intro h
    have ha : a.failures = 0 := h a (List.mem_cons_self _ _)
    have ht := ih (fun r hr => h r (List.mem_cons_of_mem _ hr))
    unfold collectActive
    split
    · simp [ha, ht]
    · simpa using ht

theorem networkRun_zero_failures (fin : Nat → RPCRec → Bool) :
    ∀ t pending active, (∀ r ∈ pending ++ active, r.failures = 0) →
      (networkRun fin pending active t).logs = [] ∧
      (networkRun fin pending active t).issued = (if t = 0 then [] else pending) ∧
      (networkRun fin pending active t).pending = (if t = 0 then pending else []) ∧
      (∀ r ∈ (networkRun fin pending active t).active, r.failures = 0) := by
  intro t
  induction t with
  | zero =>
    intro pending active h
    refine ⟨rfl, rfl, rfl, ?_⟩
    intro r hr
    exact h r (List.mem_append.mpr (Or.inr hr))
  | succ t ih =>
    intro pending active h
    have hall : ∀ r ∈ active ++ pending, r.failures = 0 := by
      intro r hr
      rcases List.mem_append.mp hr with hr | hr
      · exact h r (List.mem_append.mpr (Or.inr hr))
      · exact h r (List.mem_append.mpr (Or.inl hr))
    have hca1 : ∀ r ∈ (collectActive (fin t) (active ++ pending)).1, r.failures = 0 :=
      fun r hr => hall r (collectActive_mem _ _ r hr)
    have hca2 := collectActive_logs (fin t) _ hall
    have hih := ih [] (collectActive (fin t) (active ++ pending)).1
      (by intro r hr; simp only [List.nil_append] at hr; exact hca1 r hr)
    obtain ⟨hl, hi, hp, ha⟩ := hih
    refine ⟨?_, ?_, ?_, ?_⟩
    · show (collectActive (fin t) (active ++ pending)).2 ++
        (networkRun fin [] (collectActive (fin t) (active ++ pending)).1 t).logs = []
      rw [hca2, hl]
      rfl
    · show pending ++
        (networkRun fin [] (collectActive (fin t) (active ++ pending)).1 t).issued =
        if t + 1 = 0 then [] else pending
      rw [hi]
      cases t <;> simp
    · show (networkRun fin [] (collectActive (fin t) (active ++ pending)).1 t).pending =
        if t + 1 = 0 then pending else []
      rw [hp]
      cases t <;> simp
    · exact ha

theorem set_append_len {α : Type} (l : List α) (x v : α) :
    (l ++ [x]).set l.length v = l ++ [v] := by
  induction l with
  | nil => rfl
  | cons a t ih => simpa [List.set] using ih

theorem getSlot_getD (s : AsyncQueue) (i : Nat) :
    s.slots.getD i ⟨[], [], 0, true, true⟩ = getSlot s i := rfl

theorem asyncEnqueue_put_abort {s : AsyncQueue} {data : Payload} {idx : Nat}
    (h : lookupKey s.key_map data.key = some idx)
    (hfull : s.N ≤ (getSlot s idx).put_q.length) :
    asyncEnqueue s MTYPE_PUT_REQUEST data = none := by
  rw [← getSlot_getD] at hfull
  unfold asyncEnqueue
  simp only [show ExtractKey MTYPE_PUT_REQUEST data = data.key from rfl, h]
  rw [if_pos (And.intro trivial hfull)]

theorem asyncEnqueue_put_ok {s : AsyncQueue} {data : Payload} {idx : Nat}
    (h : lookupKey s.key_map data.key = some idx)
    (hroom : (getSlot s idx).put_q.length < s.N) :
    asyncEnqueue s MTYPE_PUT_REQUEST data =
      some { s with slots := s.slots.set idx ({ getSlot s idx with put_q := (getSlot s idx).put_q ++ [⟨MTYPE_PUT_REQUEST, data⟩] }) } := by
  have hnot : ¬ (s.N ≤ (s.slots.getD idx ⟨[], [], 0, true, true⟩).put_q.length) := by
    rw [getSlot_getD]
    omega
  unfold asyncEnqueue
  simp only [show ExtractKey MTYPE_PUT_REQUEST data = data.key from rfl, h]
  rw [if_neg (fun hc => hnot hc.2), if_neg (fun hc => absurd hc.1 (by decide)),
      if_neg (by decide), if_pos trivial]
  rfl

theorem asyncEnqueue_get_abort {s : AsyncQueue} {data : Payload} {idx : Nat}
    (h : lookupKey s.key_map data.key = some idx)
    (hfull : s.N ≤ (getSlot s idx).get_q.length) :
    asyncEnqueue s MTYPE_GET_REQUEST data = none := by
  rw [← getSlot_getD] at hfull
  unfold asyncEnqueue
  simp only [show ExtractKey MTYPE_GET_REQUEST data = data.key from rfl, h]
  rw [if_neg (fun hc => absurd hc.1 (by decide)), if_pos (And.intro trivial hfull)]

theorem asyncEnqueue_get_ok {s : AsyncQueue} {data : Payload} {idx : Nat}
    (h : lookupKey s.key_map data.key = some idx)
    (hroom : (getSlot s idx).get_q.length < s.N) :
    asyncEnqueue s MTYPE_GET_REQUEST data =
      some { s with slots := s.slots.set idx ({ getSlot s idx with get_q := (getSlot s idx).get_q ++ [⟨MTYPE_GET_REQUEST, data⟩] }) } := by
  have hnot : ¬ (s.N ≤ (s.slots.getD idx ⟨[], [], 0, true, true⟩).get_q.length) := by
    rw [getSlot_getD]
    omega
  unfold asyncEnqueue
  simp only [show ExtractKey MTYPE_GET_REQUEST data = data.key from rfl, h]
  rw [if_neg (fun hc => absurd hc.1 (by decide)), if_neg (fun hc => hnot hc.2),
      if_pos trivial]
  rfl

/-- A key first seen through a `GET_REQUEST` gets a fresh slot whose PUT
lane is empty while its current lane is the PUT lane (`is_in_put_queue_ =
1`, `is_first_update_ = true`). -/
theorem asyncEnqueue_fresh_get {s : AsyncQueue} {data : Payload}
    (h : lookupKey s.key_map data.key = none) (hN : 0 < s.N) :
    asyncEnqueue s MTYPE_GET_REQUEST data =
      some { s with
        key_map := s.key_map ++ [(data.key, s.slots.length)],
        slots := s.slots ++ [⟨[], [⟨MTYPE_GET_REQUEST, data⟩], 0, true, true⟩] } := by
  have hl2 : lookupKey (s.key_map ++ [(data.key, s.slots.length)]) data.key =
      some s.slots.length := by
    rw [lookupKey_append_of_none _ _ _ _ h, if_pos rfl]
  have hfresh : (s.slots ++ [(⟨[], [], 0, true, true⟩ : AsyncSlot)]).getD
      s.slots.length ⟨[], [], 0, true, true⟩ = ⟨[], [], 0, true, true⟩ :=
    getD_append_len _ _ _
  unfold asyncEnqueue
  simp only [show ExtractKey MTYPE_GET_REQUEST data = data.key from rfl, h, hl2, hfresh]
  rw [if_neg (fun hc => absurd hc.1 (by decide)),
      if_neg (fun hc => by
        have := hc.2
        simp at this
        omega),
      if_pos trivial, set_append_len]
  rfl

theorem SyncInv_enqueueList : ∀ (es : List (Nat × Payload)) (s : SyncQueue),
    SyncInv s → SyncInv (syncEnqueueList s es) := by
  intro es
  induction es with
  | nil => intro s h; exact h
  | cons e t ih =>
    intro s h
    exact ih _ (SyncInv_enqueue h e.1 e.2)

/-- The envelopes carrying key `k` after enqueueing a whole list, in
order. -/
theorem slotContent_enqueueList : ∀ (es : List (Nat × Payload)) (s : SyncQueue),
    SyncInv s → ∀ k, slotContent (syncEnqueueList s es) k =
      slotContent s k ++
        (es.map (fun e => (⟨e.1, e.2⟩ : TaggedMessage))).filter
          (fun m => decide (ExtractKey m.tag m.data = k)) := by
  intro es
  induction es with
  | nil => intro s h k; simp [syncEnqueueList]
  | cons e t ih =>
    intro s h k
    have hstep := slotContent_enqueue h e.1 e.2 k
    have hrec := ih (syncEnqueue s e.1 e.2) (SyncInv_enqueue h e.1 e.2) k
    show slotContent (syncEnqueueList (syncEnqueue s e.1 e.2) t) k = _
    rw [hrec, hstep]
    by_cases hk : ExtractKey e.1 e.2 = k
    · rw [if_pos hk]
      simp [hk, List.append_assoc]
    · rw [if_neg hk]
      simp [hk]

/-- Every emission's envelope carries the key of the slot it was emitted
from. -/
theorem syncRun_emission_slot (s0 : SyncQueue) (T t : Nat) (e : Nat × TaggedMessage)
    (hInv : SyncInv s0) (h : (syncRun s0 T).1.get? t = some e) :
    lookupKey s0.key_map (ExtractKey e.2.tag e.2.data) = some e.1 := by
  have hstep := syncRun_get? s0 t e h
  obtain ⟨hlt, ⟨rest, hq, _⟩, _⟩ := syncNextIdx_some hstep
  have hInvT := SyncInv_run t s0 hInv
  have hmem : e.2 ∈ (syncRun s0 t).2.request_queues.getD e.1 [] := by
    rw [hq]; exact List.mem_cons_self _ _
  have := hInvT.1 e.1 hlt e.2 hmem
  rwa [(syncRun_len_map t s0).2] at this

theorem filter_eq_emissionsAt (k : String) (i : Nat) :
    ∀ (tr : List (Nat × TaggedMessage)),
    (∀ e ∈ tr, (ExtractKey e.2.tag e.2.data = k ↔ e.1 = i)) →
    (tr.map (fun e => e.2)).filter (fun m => decide (ExtractKey m.tag m.data = k)) =
      emissionsAt i tr := by
  intro tr
  induction tr with
  | nil => intro _; rfl
  | cons e t ih =>
    intro h
    have he := h e (List.mem_cons_self _ _)
    have ht := ih (fun x hx => h x (List.mem_cons_of_mem _ hx))
    rw [List.map_cons, List.filter_cons, emissionsAt_cons]
    by_cases hk : ExtractKey e.2.tag e.2.data = k
    · rw [if_pos (he.mp hk), if_pos (by simpa using hk), ht]
    · rw [if_neg (fun hh => hk (he.mpr hh)), if_neg (by simpa using hk), ht]

def payA (b : Nat) : Payload := ⟨"a", b⟩

def payB (b : Nat) : Payload := ⟨"b", b⟩

/-- C1: with N = 2 memory servers, enqueueing PUT, PUT, GET, GET envelopes
for one key into the asynchronous queue makes four NextRequest calls return
tags PUT, GET, GET, PUT; and in general the first dequeue at a fresh slot
(PUT lane, first-drain pending) is a PUT while the dequeue immediately
following it at that slot is a GET, not another PUT. -/
theorem async_first_drain :
    (((((asyncEnqueue (asyncEmpty 2) MTYPE_PUT_REQUEST (payA 1)).bind
        (fun s => asyncEnqueue s MTYPE_PUT_REQUEST (payA 2))).bind
        (fun s => asyncEnqueue s MTYPE_GET_REQUEST (payA 3))).bind
        (fun s => asyncEnqueue s MTYPE_GET_REQUEST (payA 4))).map
        (fun s => (asyncRun s 4).1.map (fun e => e.2.tag)) =
      some [MTYPE_PUT_REQUEST, MTYPE_GET_REQUEST, MTYPE_GET_REQUEST,
            MTYPE_PUT_REQUEST]) ∧
    (∀ (s : AsyncQueue) (i T : Nat) (x : TaggedMessage), laneTagged s →
      (getSlot s i).is_put = true → (getSlot s i).first = true →
      (emissionsAt i (asyncRun s T).1).get? 0 = some x →
      x.tag = MTYPE_PUT_REQUEST) ∧
    (∀ (s : AsyncQueue) (i T : Nat) (y : TaggedMessage), laneTagged s →
      (getSlot s i).is_put = true → (getSlot s i).first = true →
      (emissionsAt i (asyncRun s T).1).get? 1 = some y →
      y.tag = MTYPE_GET_REQUEST) := by
  refine ⟨by rfl, ?_, ?_⟩
  · intro s i T x hlt hput hfirst hx
    have htag := emissionsAt_tags T s i hlt 0 x hx
    rw [htag]
    simp [slotOutTag, slotState, hput]
  · intro s i T y hlt hput hfirst hy
    have htag := emissionsAt_tags T s i hlt 1 y hy
    rw [htag, Function.iterate_one]
    simp [slotOutTag, slotStep, slotState, hput, hfirst]

def sW1 : AsyncQueue :=
  ⟨[("a", 0)],
   [⟨[⟨MTYPE_PUT_REQUEST, payA 1⟩], [⟨MTYPE_GET_REQUEST, payA 2⟩], 0, true, true⟩],
   0, 1⟩

theorem async_first_drain_witness :
    (⟨MTYPE_PUT_REQUEST, payA 1⟩ : TaggedMessage).tag = MTYPE_PUT_REQUEST ∧
    (⟨MTYPE_GET_REQUEST, payA 2⟩ : TaggedMessage).tag = MTYPE_GET_REQUEST :=
  ⟨async_first_drain.2.1 sW1 0 2 ⟨MTYPE_PUT_REQUEST, payA 1⟩
      (by unfold laneTagged; decide) rfl rfl rfl,
   async_first_drain.2.2 sW1 0 2 ⟨MTYPE_GET_REQUEST, payA 2⟩
      (by unfold laneTagged; decide) rfl rfl rfl⟩

/-- C2: once a slot has been primed (flipped to the GET lane with counter 0
and the first-drain sentinel cleared), the tags NextRequest dequeues at it
come in alternating blocks — N GETs, then N PUTs, then N GETs, … — so the
tag of its t-th subsequent emission is GET exactly when `(t / N) % 2 = 0`. -/
theorem async_lane_alternation :
    ∀ (s : AsyncQueue) (i T t : Nat) (m : TaggedMessage), laneTagged s →
      0 < s.N →
      (getSlot s i).is_put = false → (getSlot s i).first = false →
      (getSlot s i).counter = 0 →
      (emissionsAt i (asyncRun s T).1).get? t = some m →
      m.tag = (if (t / s.N) % 2 = 0 then MTYPE_GET_REQUEST
               else MTYPE_PUT_REQUEST) := by
  intro s i T t m hlt hN hp hf hc h
  have htag := emissionsAt_tags T s i hlt t m h
  have hst : slotState s i = (0, false, false) := by
    unfold slotState
    rw [hp, hf, hc]
  rw [htag, hst, slotStep_iterate hN t]
  by_cases hb : (t / s.N) % 2 = 1
  · have h0 : ¬ ((t / s.N) % 2 = 0) := by omega
    simp [slotOutTag, hb, h0]
  · have h0 : (t / s.N) % 2 = 0 := by omega
    simp [slotOutTag, hb, h0]

def sW2 : AsyncQueue :=
  ⟨[("a", 0)],
   [⟨[⟨MTYPE_PUT_REQUEST, payA 1⟩], [⟨MTYPE_GET_REQUEST, payA 2⟩], 0, false, false⟩],
   0, 1⟩

theorem async_lane_alternation_witness :
    (⟨MTYPE_GET_REQUEST, payA 2⟩ : TaggedMessage).tag =
      (if (0 / sW2.N) % 2 = 0 then MTYPE_GET_REQUEST else MTYPE_PUT_REQUEST) ∧
    (⟨MTYPE_PUT_REQUEST, payA 1⟩ : TaggedMessage).tag =
      (if (1 / sW2.N) % 2 = 0 then MTYPE_GET_REQUEST else MTYPE_PUT_REQUEST) :=
  ⟨async_lane_alternation sW2 0 2 0 ⟨MTYPE_GET_REQUEST, payA 2⟩
      (by unfold laneTagged; decide) (by decide) rfl rfl rfl rfl,
   async_lane_alternation sW2 0 2 1 ⟨MTYPE_PUT_REQUEST, payA 1⟩
      (by unfold laneTagged; decide) (by decide) rfl rfl rfl rfl⟩

/-- C3: with N = 2, the third PUT enqueued for one key aborts the process
(`CHECK_LT` fails) while the first two succeed; in general, an async
enqueue aborts exactly on a PUT (resp. GET) whose key's PUT (resp. GET)
lane already holds N messages, and succeeds on lanes holding fewer. -/
theorem async_overflow_abort :
    ((((asyncEnqueue (asyncEmpty 2) MTYPE_PUT_REQUEST (payA 1)).bind
        (fun s => asyncEnqueue s MTYPE_PUT_REQUEST (payA 2))).bind
        (fun s => asyncEnqueue s MTYPE_PUT_REQUEST (payA 3))) = none) ∧
    (((asyncEnqueue (asyncEmpty 2) MTYPE_PUT_REQUEST (payA 1)).bind
        (fun s => asyncEnqueue s MTYPE_PUT_REQUEST (payA 2))).isSome = true) ∧
    (∀ (s : AsyncQueue) (data : Payload) (idx : Nat),
      lookupKey s.key_map data.key = some idx →
      s.N ≤ (getSlot s idx).put_q.length →
      asyncEnqueue s MTYPE_PUT_REQUEST data = none) ∧
    (∀ (s : AsyncQueue) (data : Payload) (idx : Nat),
      lookupKey s.key_map data.key = some idx →
      (getSlot s idx).put_q.length < s.N →
      (asyncEnqueue s MTYPE_PUT_REQUEST data).isSome = true) ∧
    (∀ (s : AsyncQueue) (data : Payload) (idx : Nat),
      lookupKey s.key_map data.key = some idx →
      s.N ≤ (getSlot s idx).get_q.length →
      asyncEnqueue s MTYPE_GET_REQUEST data = none) ∧
    (∀ (s : AsyncQueue) (data : Payload) (idx : Nat),
      lookupKey s.key_map data.key = some idx →
      (getSlot s idx).get_q.length < s.N →
      (asyncEnqueue s MTYPE_GET_REQUEST data).isSome = true) := by
  refine ⟨by rfl, by rfl, ?_, ?_, ?_, ?_⟩
  · intro s data idx h hfull
    exact asyncEnqueue_put_abort h hfull
  · intro s data idx h hroom
    rw [asyncEnqueue_put_ok h hroom]
    rfl
  · intro s data idx h hfull
    exact asyncEnqueue_get_abort h hfull
  · intro s data idx h hroom
    rw [asyncEnqueue_get_ok h hroom]
    rfl

def sW3full : AsyncQueue :=
  ⟨[("a", 0)],
   [⟨[⟨MTYPE_PUT_REQUEST, payA 1⟩, ⟨MTYPE_PUT_REQUEST, payA 2⟩],
     [⟨MTYPE_GET_REQUEST, payA 3⟩, ⟨MTYPE_GET_REQUEST, payA 4⟩], 0, true, true⟩],
   0, 2⟩

def sW3room : AsyncQueue :=
  ⟨[("a", 0)],
   [⟨[⟨MTYPE_PUT_REQUEST, payA 1⟩], [⟨MTYPE_GET_REQUEST, payA 3⟩], 0, true, true⟩],
   0, 2⟩

theorem async_overflow_abort_witness :
    asyncEnqueue sW3full MTYPE_PUT_REQUEST (payA 9) = none ∧
    (asyncEnqueue sW3room MTYPE_PUT_REQUEST (payA 9)).isSome = true ∧
    asyncEnqueue sW3full MTYPE_GET_REQUEST (payA 9) = none ∧
    (asyncEnqueue sW3room MTYPE_GET_REQUEST (payA 9)).isSome = true :=
  ⟨async_overflow_abort.2.2.1 sW3full (payA 9) 0 rfl (by decide),
   async_overflow_abort.2.2.2.1 sW3room (payA 9) 0 rfl (by decide),
   async_overflow_abort.2.2.2.2.1 sW3full (payA 9) 0 rfl (by decide),
   async_overflow_abort.2.2.2.2.2 sW3room (payA 9) 0 rfl (by decide)⟩

def c8state : AsyncQueue :=
  ⟨[("a", 0), ("b", 1)],
   [⟨[], [⟨MTYPE_GET_REQUEST, payA 1⟩, ⟨MTYPE_GET_REQUEST, payA 2⟩], 0, false, false⟩,
    ⟨[], [⟨MTYPE_GET_REQUEST, payB 1⟩, ⟨MTYPE_GET_REQUEST, payB 2⟩], 0, false, false⟩],
   0, 2⟩

/-- C8 counterexample: in `c8state` the cursor sits on slot 0, whose
current (GET) lane holds 2 = N messages, yet the four dequeues come from
slots 0, 1, 0, 1 — the visit to slot 0 drains a single message and the
dispatcher rotates to the next key immediately, instead of draining up to N
messages from the lane within the visit and rotating only between visits
(which would give 0, 0, 1, 1). -/
theorem async_per_visit_counterexample :
    c8state.N = 2 ∧ c8state.key_index = 0 ∧
    (getSlot c8state 0).is_put = false ∧
    (getSlot c8state 0).get_q.length = 2 ∧
    (asyncRun c8state 4).1.map Prod.fst = [0, 1, 0, 1] ∧
    ((asyncRun c8state 4).1.map Prod.fst).take 2 ≠ [0, 0] := by
  refine ⟨rfl, rfl, rfl, rfl, rfl, by decide⟩

/-- C8 (amended): each visit of the async dispatcher to a slot drains
exactly one envelope — the head of the slot's current lane — leaves every
other slot untouched, and advances the cursor just past the visited slot;
on a primed slot the lane stays the same after the drain exactly when the
access counter has not yet reached `num_mem_servers_`, so N messages leave
one lane across N successive visits before the lane flips. -/
theorem async_per_visit_amended :
    (∀ (s : AsyncQueue) (i : Nat) (m : TaggedMessage) (s2 : AsyncQueue),
      asyncNextIdx s = some (i, m, s2) →
      s2.key_index = (i + 1) % s.slots.length) ∧
    (∀ (s : AsyncQueue) (i : Nat) (m : TaggedMessage) (s2 : AsyncQueue),
      asyncNextIdx s = some (i, m, s2) →
      (if (getSlot s i).is_put then
         (getSlot s i).put_q = m :: (getSlot s2 i).put_q ∧
         (getSlot s2 i).get_q = (getSlot s i).get_q
       else
         (getSlot s i).get_q = m :: (getSlot s2 i).get_q ∧
         (getSlot s2 i).put_q = (getSlot s i).put_q)) ∧
    (∀ (s : AsyncQueue) (i : Nat) (m : TaggedMessage) (s2 : AsyncQueue) (x : Nat),
      asyncNextIdx s = some (i, m, s2) → x ≠ i →
      getSlot s2 x = getSlot s x) ∧
    (∀ (s : AsyncQueue) (i : Nat) (m : TaggedMessage) (s2 : AsyncQueue),
      asyncNextIdx s = some (i, m, s2) →
      (getSlot s i).first = false →
      (((getSlot s2 i).is_put = (getSlot s i).is_put) ↔
        ¬ ((getSlot s i).counter + 1 = s.N))) := by
  refine ⟨?_, ?_, ?_, ?_⟩
  · intro s i m s2 h
    exact (asyncNextIdx_some h).2.2.2.2.1
  · intro s i m s2 h
    exact (asyncNextIdx_some h).2.2.2.2.2.2.2.2.2.2.1
  · intro s i m s2 x h hx
    exact (asyncNextIdx_some h).2.2.2.2.2.2.1 x hx
  · intro s i m s2 h hf
    have hp := (asyncNextIdx_some h).2.2.2.2.2.2.2.2.1
    rcases hip : (getSlot s i).is_put with _ | _ <;>
      by_cases hc : (getSlot s i).counter + 1 = s.N <;>
      simp only [slotStep, slotState, hip, hf, hc, if_pos, if_neg] at hp <;>
      simp [hp, hip, hc]

def sW8 : AsyncQueue :=
  ⟨[("a", 0)],
   [⟨[], [⟨MTYPE_GET_REQUEST, payA 1⟩, ⟨MTYPE_GET_REQUEST, payA 2⟩], 0, false, false⟩],
   0, 2⟩

def sW8next : AsyncQueue :=
  ⟨[("a", 0)],
   [⟨[], [⟨MTYPE_GET_REQUEST, payA 2⟩], 1, false, false⟩],
   1 % 1, 2⟩

theorem async_per_visit_amended_witness :
    sW8next.key_index = (0 + 1) % sW8.slots.length ∧
    (if (getSlot sW8 0).is_put then
       (getSlot sW8 0).put_q =
         (⟨MTYPE_GET_REQUEST, payA 1⟩ : TaggedMessage) :: (getSlot sW8next 0).put_q ∧
       (getSlot sW8next 0).get_q = (getSlot sW8 0).get_q
     else
       (getSlot sW8 0).get_q =
         (⟨MTYPE_GET_REQUEST, payA 1⟩ : TaggedMessage) :: (getSlot sW8next 0).get_q ∧
       (getSlot sW8next 0).put_q = (getSlot sW8 0).put_q) ∧
    getSlot sW8next 5 = getSlot sW8 5 ∧
    (((getSlot sW8next 0).is_put = (getSlot sW8 0).is_put) ↔
      ¬ ((getSlot sW8 0).counter + 1 = sW8.N)) :=
  ⟨async_per_visit_amended.1 sW8 0 ⟨MTYPE_GET_REQUEST, payA 1⟩ sW8next rfl,
   async_per_visit_amended.2.1 sW8 0 ⟨MTYPE_GET_REQUEST, payA 1⟩ sW8next rfl,
   async_per_visit_amended.2.2.1 sW8 0 ⟨MTYPE_GET_REQUEST, payA 1⟩ sW8next 5 rfl
     (by decide),
   async_per_visit_amended.2.2.2 sW8 0 ⟨MTYPE_GET_REQUEST, payA 1⟩ sW8next rfl rfl⟩

/-- C9 counterexample: `ProcessRequest` discards the boolean result of
`ParseFromArray` — on a payload that fails to parse (`parseOk` constantly
false) the handler is still invoked and the process does not abort; only an
unexpected tag trips the `CHECK_EQ`. -/
theorem protocol_parse_counterexample :
    processRequest (fun _ _ => false) ⟨MTYPE_PUT_REQUEST, payA 0⟩ =
      ProcessResult.handled MTYPE_PUT_REQUEST false ∧
    processRequest (fun _ _ => false) ⟨MTYPE_PUT_REQUEST, payA 0⟩ ≠
      ProcessResult.abort ∧
    processRequest (fun _ _ => false) ⟨MTYPE_GET_REQUEST, payA 0⟩ =
      ProcessResult.handled MTYPE_GET_REQUEST false ∧
    processRequest (fun _ _ => false) ⟨MTYPE_GET_REQUEST, payA 0⟩ ≠
      ProcessResult.abort := by
  refine ⟨rfl, by decide, rfl, by decide⟩

/-- C9 (amended): the processor materializes the typed request by tag and
invokes the handler regardless of whether the payload parsed — the parse
result is ignored, so no parse failure is fatal; the process aborts only
when the dequeued tag is neither `GET_REQUEST` nor `PUT_REQUEST`
(`CHECK_EQ`). -/
theorem protocol_parse_amended :
    (∀ (parseOk : Nat → Payload → Bool) (msg : TaggedMessage),
      msg.tag = MTYPE_GET_REQUEST ∨ msg.tag = MTYPE_PUT_REQUEST →
      processRequest parseOk msg =
        ProcessResult.handled msg.tag (parseOk msg.tag msg.data)) ∧
    (∀ (parseOk : Nat → Payload → Bool) (msg : TaggedMessage),
      msg.tag ≠ MTYPE_GET_REQUEST → msg.tag ≠ MTYPE_PUT_REQUEST →
      processRequest parseOk msg = ProcessResult.abort) := by
  constructor
  · intro parseOk msg h
    rcases h with h | h <;> simp [processRequest, h, MTYPE_GET_REQUEST, MTYPE_PUT_REQUEST]
  · intro parseOk msg h1 h2
    simp [processRequest, h1, h2]

theorem protocol_parse_amended_witness :
    processRequest (fun _ _ => false) ⟨MTYPE_PUT_REQUEST, payA 0⟩ =
      ProcessResult.handled
        (⟨MTYPE_PUT_REQUEST, payA 0⟩ : TaggedMessage).tag
        ((fun _ _ => false) (⟨MTYPE_PUT_REQUEST, payA 0⟩ : TaggedMessage).tag
           (⟨MTYPE_PUT_REQUEST, payA 0⟩ : TaggedMessage).data) ∧
    processRequest (fun _ _ => false) ⟨7, payA 0⟩ = ProcessResult.abort :=
  ⟨protocol_parse_amended.1 (fun _ _ => false) ⟨MTYPE_PUT_REQUEST, payA 0⟩
      (Or.inr rfl),
   protocol_parse_amended.2 (fun _ _ => false) ⟨7, payA 0⟩ (by decide) (by decide)⟩

/-- C10: a slot first created by GET-only traffic starts in the PUT lane
with an empty PUT FIFO and the first-drain sentinel set; any slot whose
current lane is PUT with an empty PUT FIFO is never dequeued from by
NextRequest and never changes, however many GET envelopes are queued — its
GET envelopes stay queued unless a PUT for that key arrives. -/
theorem get_only_keys_starve :
    (∀ (s : AsyncQueue) (data : Payload), lookupKey s.key_map data.key = none →
      0 < s.N →
      asyncEnqueue s MTYPE_GET_REQUEST data =
        some { s with key_map := s.key_map ++ [(data.key, s.slots.length)],
                      slots := s.slots ++
                        [⟨[], [⟨MTYPE_GET_REQUEST, data⟩], 0, true, true⟩] }) ∧
    (∀ (T : Nat) (s : AsyncQueue) (i : Nat),
      (getSlot s i).is_put = true → (getSlot s i).put_q = [] →
      emissionsAt i (asyncRun s T).1 = []) ∧
    (∀ (T : Nat) (s : AsyncQueue) (i : Nat),
      (getSlot s i).is_put = true → (getSlot s i).put_q = [] →
      getSlot (asyncRun s T).2 i = getSlot s i) := by
  refine ⟨fun s data h hN => asyncEnqueue_fresh_get h hN,
    fun T s i hp he => (asyncRun_skips_empty_put T s i hp he).1,
    fun T s i hp he => (asyncRun_skips_empty_put T s i hp he).2⟩

def sW10 : AsyncQueue :=
  ⟨[("a", 0)],
   [⟨[], [⟨MTYPE_GET_REQUEST, payA 1⟩, ⟨MTYPE_GET_REQUEST, payA 2⟩], 0, true, true⟩],
   0, 2⟩

theorem get_only_keys_starve_witness :
    asyncEnqueue (asyncEmpty 2) MTYPE_GET_REQUEST (payA 1) =
      some { asyncEmpty 2 with
        key_map := (asyncEmpty 2).key_map ++ [((payA 1).key, (asyncEmpty 2).slots.length)],
        slots := (asyncEmpty 2).slots ++
          [⟨[], [⟨MTYPE_GET_REQUEST, payA 1⟩], 0, true, true⟩] } ∧
    emissionsAt 0 (asyncRun sW10 3).1 = [] ∧
    getSlot (asyncRun sW10 3).2 0 = getSlot sW10 0 :=
  ⟨get_only_keys_starve.1 (asyncEmpty 2) (payA 1) rfl (by decide),
   get_only_keys_starve.2.1 3 sW10 0 rfl rfl,
   get_only_keys_starve.2.2 3 sW10 0 rfl rfl⟩

/-- C4: enqueueing PUT "a", PUT "a", PUT "b" into the synchronous queue
yields dequeues (PUT,"a"), (PUT,"b"), (PUT,"a"); in general, between two
successive dequeues of the same key, at least one dequeue occurs for every
other key whose queue is non-empty at the time of the first of them. -/
theorem sync_round_robin :
    ((syncRun (syncEnqueueList syncEmpty
        [(MTYPE_PUT_REQUEST, payA 1), (MTYPE_PUT_REQUEST, payA 2),
         (MTYPE_PUT_REQUEST, payB 3)]) 3).1.map
      (fun e => (e.2.tag, e.2.data.key)) =
      [(MTYPE_PUT_REQUEST, "a"), (MTYPE_PUT_REQUEST, "b"),
       (MTYPE_PUT_REQUEST, "a")]) ∧
    (∀ (s0 : SyncQueue) (T p q : Nat) (ek eq2 : Nat × TaggedMessage) (kk kj : String),
      SyncInv s0 →
      (syncRun s0 T).1.get? p = some ek →
      ExtractKey ek.2.tag ek.2.data = kk →
      (syncRun s0 T).1.get? q = some eq2 →
      ExtractKey eq2.2.tag eq2.2.data = kk →
      p < q →
      (∀ r e, p < r → r < q → (syncRun s0 T).1.get? r = some e →
        ExtractKey e.2.tag e.2.data ≠ kk) →
      kj ≠ kk →
      slotContent ((syncRun s0 (p + 1)).2) kj ≠ [] →
      ∃ r e, p < r ∧ r < q ∧ (syncRun s0 T).1.get? r = some e ∧
        ExtractKey e.2.tag e.2.data = kj) := by
  constructor
  · rfl
  · intro s0 T p q ek eq2 kk kj hInv hp hkp hq hkq hpq hbet hkj hne
    have hsp := syncRun_emission_slot s0 T p ek hInv hp
    have hsq := syncRun_emission_slot s0 T q eq2 hInv hq
    rw [hkp] at hsp
    rw [hkq] at hsq
    have hslots : eq2.1 = ek.1 := Option.some.inj (hsq.symm.trans hsp)
    have hmapP : (syncRun s0 (p + 1)).2.key_map = s0.key_map :=
      (syncRun_len_map _ _).2
    unfold slotContent at hne
    rw [hmapP] at hne
    rcases hlkj : lookupKey s0.key_map kj with _ | sj
    · rw [hlkj] at hne
      exact absurd rfl hne
    · rw [hlkj] at hne
      have hsjlt : sj < s0.request_queues.length := hInv.2.2 kj sj hlkj
      have hsjk : sj ≠ ek.1 := by
        intro he
        rw [he] at hlkj
        exact hkj (hInv.2.1 kj kk ek.1 hlkj hsp)
      by_contra hcon
      push_neg at hcon
      have hq2 : (syncRun s0 T).1.get? q = some (ek.1, eq2.2) := by
        rw [← hslots]
        exact hq
      apply sync_rr_core s0 T p q ek.1 sj ek.2 eq2.2 hp hq2 hpq
      · intro r e hr1 hr2 hre heq1
        have hsl := syncRun_emission_slot s0 T r e hInv hre
        rw [heq1] at hsl
        exact hbet r e hr1 hr2 hre (hInv.2.1 _ _ _ hsl hsp)
      · intro r e hr1 hr2 hre heq1
        have hsl := syncRun_emission_slot s0 T r e hInv hre
        rw [heq1] at hsl
        exact hcon r e hr1 hr2 hre (hInv.2.1 _ _ _ hsl hlkj)
      · exact hsjk
      · exact hsjlt
      · exact hne

def sW4 : SyncQueue :=
  syncEnqueueList syncEmpty
    [(MTYPE_PUT_REQUEST, payA 1), (MTYPE_PUT_REQUEST, payA 2),
     (MTYPE_PUT_REQUEST, payB 3)]

theorem sync_round_robin_witness :
    ∃ r e, 0 < r ∧ r < 2 ∧ (syncRun sW4 3).1.get? r = some e ∧
      ExtractKey e.2.tag e.2.data = "b" :=
  sync_round_robin.2 sW4 3 0 2 (0, ⟨MTYPE_PUT_REQUEST, payA 1⟩)
    (0, ⟨MTYPE_PUT_REQUEST, payA 2⟩) "a" "b"
    (SyncInv_enqueueList _ _ SyncInv_empty)
    rfl rfl rfl rfl (by decide)
    (by
      intro r e hr1 hr2 hre
      have hr : r = 1 := by omega
      subst hr
      have hval : (syncRun sW4 3).1.get? 1 =
          some (1, ⟨MTYPE_PUT_REQUEST, payB 3⟩) := rfl
      rw [hval] at hre
      cases hre
      decide)
    (by decide)
    (by decide)

/-- C5: for every key, the envelopes carrying that key are dequeued by the
synchronous queue in exactly the order they were enqueued — the dequeued
subsequence for the key is a prefix of the enqueued subsequence for it. -/
theorem sync_fifo_per_key :
    ∀ (es : List (Nat × Payload)) (k : String) (T : Nat),
      ∃ rest,
        (((syncRun (syncEnqueueList syncEmpty es) T).1.map (fun e => e.2)).filter
            (fun m => decide (ExtractKey m.tag m.data = k))) ++ rest =
          (es.map (fun e => (⟨e.1, e.2⟩ : TaggedMessage))).filter
            (fun m => decide (ExtractKey m.tag m.data = k)) := by
  intro es k T
  have hInv : SyncInv (syncEnqueueList syncEmpty es) :=
    SyncInv_enqueueList es syncEmpty SyncInv_empty
  have hcontent := slotContent_enqueueList es syncEmpty SyncInv_empty k
  have hempty : slotContent syncEmpty k = [] := rfl
  rw [hempty, List.nil_append] at hcontent
  rcases hlk : lookupKey (syncEnqueueList syncEmpty es).key_map k with _ | sk
  · refine ⟨[], ?_⟩
    have htr : (((syncRun (syncEnqueueList syncEmpty es) T).1.map
        (fun e => e.2)).filter
        (fun m => decide (ExtractKey m.tag m.data = k))) = [] := by
      rw [List.filter_eq_nil]
      intro m hm
      rcases List.mem_map.mp hm with ⟨e, he, hem⟩
      rcases List.mem_iff_get?.mp he with ⟨t, ht⟩
      have hsl := syncRun_emission_slot _ T t e hInv ht
      simp only [decide_eq_true_eq]
      intro hkey
      rw [← hem] at hkey
      rw [hkey, hlk] at hsl
      exact absurd hsl (by simp)
    rw [htr, List.nil_append, ← hcontent]
    simp only [slotContent, hlk]
  · have hiff : ∀ e ∈ (syncRun (syncEnqueueList syncEmpty es) T).1,
        (ExtractKey e.2.tag e.2.data = k ↔ e.1 = sk) := by
      intro e he
      rcases List.mem_iff_get?.mp he with ⟨t, ht⟩
      have hsl := syncRun_emission_slot _ T t e hInv ht
      constructor
      · intro hk
        rw [hk, hlk] at hsl
        exact (Option.some.inj hsl).symm
      · intro hi
        rw [hi] at hsl
        exact hInv.2.1 _ _ _ hsl hlk
    have hfe := filter_eq_emissionsAt k sk _ hiff
    have hqueues := syncRun_queues T (syncEnqueueList syncEmpty es) sk
    refine ⟨(syncRun (syncEnqueueList syncEmpty es) T).2.request_queues.getD sk [], ?_⟩
    rw [hfe, hqueues, ← hcontent]
    simp only [slotContent, hlk]

/-- C6: the `failures` counter of a send record is written only by the
`RPCRequest` constructor, to zero — no code path increments it or re-issues
a send.  Records built by the constructor keep `failures = 0` through any
number of network-loop rounds under any completion schedule, every pending
record is issued exactly once, and the retry log in `CollectActive` (which
fires only for `failures > 0`) never fires. -/
theorem transport_retry_vestigial :
    (∀ (tgt method : Nat) (msg : Payload),
      (mkRPCRequest tgt method msg).failures = 0) ∧
    (∀ (fin : Nat → RPCRec → Bool) (t : Nat)
        (args acts : List (Nat × Nat × Payload)),
      (networkRun fin (args.map (fun a => mkRPCRequest a.1 a.2.1 a.2.2))
        (acts.map (fun a => mkRPCRequest a.1 a.2.1 a.2.2)) t).logs = []) ∧
    (∀ (fin : Nat → RPCRec → Bool) (t : Nat)
        (args acts : List (Nat × Nat × Payload)),
      (networkRun fin (args.map (fun a => mkRPCRequest a.1 a.2.1 a.2.2))
        (acts.map (fun a => mkRPCRequest a.1 a.2.1 a.2.2)) t).issued =
        (if t = 0 then [] else args.map (fun a => mkRPCRequest a.1 a.2.1 a.2.2))) ∧
    (∀ (fin : Nat → RPCRec → Bool) (t : Nat)
        (args acts : List (Nat × Nat × Payload)) (r : RPCRec),
      r ∈ (networkRun fin (args.map (fun a => mkRPCRequest a.1 a.2.1 a.2.2))
        (acts.map (fun a => mkRPCRequest a.1 a.2.1 a.2.2)) t).active →
      r.failures = 0) := by
  have hzero : ∀ (args acts : List (Nat × Nat × Payload)) (r : RPCRec),
      r ∈ (args.map (fun a => mkRPCRequest a.1 a.2.1 a.2.2)) ++
        (acts.map (fun a => mkRPCRequest a.1 a.2.1 a.2.2)) →
      r.failures = 0 := by
    intro args acts r hr
    rcases List.mem_append.mp hr with hr | hr <;>
      · rcases List.mem_map.mp hr with ⟨a, _, ha⟩
        rw [← ha]
        rfl
  refine ⟨fun _ _ _ => rfl, ?_, ?_, ?_⟩
  · intro fin t args acts
    exact (networkRun_zero_failures fin t _ _ (hzero args acts)).1
  · intro fin t args acts
    exact (networkRun_zero_failures fin t _ _ (hzero args acts)).2.1
  · intro fin t args acts r hr
    exact (networkRun_zero_failures fin t _ _ (hzero args acts)).2.2.2 r hr

theorem transport_retry_vestigial_witness :
    (mkRPCRequest 0 5 (payA 0)).failures = 0 ∧
    (networkRun (fun _ _ => false)
      (([((0 : Nat), (5 : Nat), payA 0)] : List (Nat × Nat × Payload)).map
        (fun a => mkRPCRequest a.1 a.2.1 a.2.2))
      (([] : List (Nat × Nat × Payload)).map
        (fun a => mkRPCRequest a.1 a.2.1 a.2.2)) 1).logs = [] ∧
    (networkRun (fun _ _ => false)
      (([((0 : Nat), (5 : Nat), payA 0)] : List (Nat × Nat × Payload)).map
        (fun a => mkRPCRequest a.1 a.2.1 a.2.2))
      (([] : List (Nat × Nat × Payload)).map
        (fun a => mkRPCRequest a.1 a.2.1 a.2.2)) 1).issued =
      (if (1 : Nat) = 0 then []
       else (([((0 : Nat), (5 : Nat), payA 0)] : List (Nat × Nat × Payload)).map
         (fun a => mkRPCRequest a.1 a.2.1 a.2.2))) ∧
    (mkRPCRequest 0 5 (payA 0)).failures = 0 :=
  ⟨transport_retry_vestigial.1 0 5 (payA 0),
   transport_retry_vestigial.2.1 (fun _ _ => false) 1 [(0, 5, payA 0)] [],
   transport_retry_vestigial.2.2.1 (fun _ _ => false) 1 [(0, 5, payA 0)] [],
   transport_retry_vestigial.2.2.2 (fun _ _ => false) 1 [(0, 5, payA 0)] []
     (mkRPCRequest 0 5 (payA 0)) (by decide)⟩

/-- C7: `Broadcast` appends exactly one send record per peer `0..size-2`
(one per non-coordinator peer, none to the coordinator `size-1`), and
`SyncBroadcast` performs that broadcast and then consumes exactly `size-1`
envelopes of the reply kind from the response pool, leaving every other
kind untouched. -/
theorem broadcast_sync_broadcast :
    (∀ (size : Nat) (st : NetState) (method : Nat) (msg : Payload),
      (ntBroadcast size st method msg).pending_sends =
        st.pending_sends ++
          (List.range (size - 1)).map (fun i => mkRPCRequest i method msg)) ∧
    (∀ (size method : Nat) (msg : Payload) (tgt : Nat),
      (((List.range (size - 1)).map (fun i => mkRPCRequest i method msg)).filter
        (fun r => decide (r.target = tgt))).length =
        if tgt < size - 1 then 1 else 0) ∧
    (∀ (size : Nat) (st : NetState) (method reply : Nat) (msg : Payload)
        (pool p2 : Pool),
      (ntSyncBroadcast size st method reply msg pool).2 = some p2 →
      poolCount p2 reply size + (size - 1) = poolCount pool reply size) ∧
    (∀ (size : Nat) (st : NetState) (method reply : Nat) (msg : Payload)
        (pool p2 : Pool) (k src : Nat),
      (ntSyncBroadcast size st method reply msg pool).2 = some p2 →
      k ≠ reply → p2 k src = pool k src) ∧
    (∀ (size : Nat) (st : NetState) (method reply : Nat) (msg : Payload)
        (pool : Pool),
      (ntSyncBroadcast size st method reply msg pool).1 =
        ntBroadcast size st method msg) := by
  refine ⟨fun size st method msg => ntBroadcast_pending size st method msg,
    fun size method msg tgt => count_range_map_target (size - 1) method msg tgt,
    ?_, ?_, fun _ _ _ _ _ _ => rfl⟩
  · intro size st method reply msg pool p2 h
    exact (waitForSync_consumes size reply (size - 1) pool p2 h).1
  · intro size st method reply msg pool p2 k src h hk
    exact (waitForSync_consumes size reply (size - 1) pool p2 h).2 k src hk

def poolW : Pool := fun k s => if k = 7 ∧ s = 0 then [payA 0] else []

def poolW2 : Pool := fun k s => if k = 7 ∧ s = 0 then [] else poolW k s

theorem broadcast_sync_broadcast_witness :
    (ntBroadcast 4 ⟨[]⟩ 5 (payA 0)).pending_sends =
      ([] : List RPCRec) ++
        (List.range (4 - 1)).map (fun i => mkRPCRequest i 5 (payA 0)) ∧
    (((List.range (4 - 1)).map (fun i => mkRPCRequest i 5 (payA 0))).filter
      (fun r => decide (r.target = 3))).length = (if 3 < 4 - 1 then 1 else 0) ∧
    poolCount poolW2 7 2 + (2 - 1) = poolCount poolW 7 2 ∧
    poolW2 3 0 = poolW 3 0 ∧
    (ntSyncBroadcast 2 ⟨[]⟩ 5 7 (payA 0) poolW).1 = ntBroadcast 2 ⟨[]⟩ 5 (payA 0) :=
  ⟨broadcast_sync_broadcast.1 4 ⟨[]⟩ 5 (payA 0),
   broadcast_sync_broadcast.2.1 4 5 (payA 0) 3,
   broadcast_sync_broadcast.2.2.1 2 ⟨[]⟩ 5 7 (payA 0) poolW poolW2 rfl,
   broadcast_sync_broadcast.2.2.2.1 2 ⟨[]⟩ 5 7 (payA 0) poolW poolW2 3 0 rfl
     (by decide),
   broadcast_sync_broadcast.2.2.2.2 2 ⟨[]⟩ 5 7 (payA 0) poolW⟩

end Lapis
